import Mathlib

/-!
# Verification of the pr-screenshots upload scripts

A shallow embedding of the pure computational core of the three scripts
`scripts/pr_assets.py`, `scripts/imgbb_upload.py` and `scripts/imgur_upload.py`
of the pr-screenshots skill, together with proofs about it.

Strings are modelled as `List Char`.  The three scripts share, verbatim, the
regex `SCREENSHOTS_PATTERN = re.compile(r"(?im)^##\s+screenshots\b.*?(?=\n##\s|\Z)", re.DOTALL)`,
the section builder `build_screenshots_section`, and the document
transformation inside `update_pr`; those are embedded once.  External
collaborators (the `gh` CLI, `curl`, `sips`, the filesystem) are modelled by
explicit environment records carrying their observable outcomes.

Python character classes (`\s`, `\w`, case folding for `re.IGNORECASE`) are
embedded exactly on the ASCII range; for `\s` the non-ASCII Unicode
whitespace code points are included as well, while `\w` and case folding are
restricted to ASCII (the scripts only ever build ASCII markdown around the
user-supplied labels and URLs).
-/

/-- Python's `\s` character class (and the `str.isspace`/`str.rstrip()`
whitespace set): the Unicode whitespace code points. -/
def pySpace (c : Char) : Bool :=
  let n := c.toNat
  n == 0x20 || decide (0x9 ≤ n ∧ n ≤ 0xd) || decide (0x1c ≤ n ∧ n ≤ 0x1f) ||
  n == 0x85 || n == 0xa0 || n == 0x1680 || decide (0x2000 ≤ n ∧ n ≤ 0x200a) ||
  n == 0x2028 || n == 0x2029 || n == 0x202f || n == 0x205f || n == 0x3000

/-- Python's `\w` character class, on the ASCII range: alphanumerics and `_`. -/
def pyWordChar (c : Char) : Bool :=
  c.isAlpha || c.isDigit || c == '_'

/-- `s.rstrip("\n")`: drop every trailing newline. -/
def rstripNewlines (l : List Char) : List Char :=
  (l.reverse.dropWhile (fun c => c == '\n')).reverse

/-- `s.rstrip()`: drop all trailing whitespace. -/
def rstripSpace (l : List Char) : List Char :=
  (l.reverse.dropWhile pySpace).reverse

/-- Python's `sep.join(lines)`. -/
def pyJoin (sep : List Char) : List (List Char) → List Char
  | [] => []
  | [x] => x
  | x :: y :: xs => x ++ sep ++ pyJoin sep (y :: xs)

/-- Python's `s.endswith(t)`. -/
def pyEndsWith (l s : List Char) : Bool :=
  l.drop (l.length - s.length) == s

/-! ## The `SCREENSHOTS_PATTERN` regex

`(?im)^##\s+screenshots\b.*?(?=\n##\s|\Z)` with `re.DOTALL`.  Because `s`
is not a whitespace character, the greedy `\s+` is deterministic (maximal
whitespace run), and because the non-greedy `.*?` is bounded by a lookahead
that is checked position by position, the whole pattern is matched by a
deterministic scan.  `matchAt l` tries to match the pattern at the start of
`l` (the `^` line-start condition is handled by the callers' scan flag) and
returns the matched region and the remainder. -/

/-- The lookahead `(?=\n##\s)`. -/
def lookaheadHit : List Char → Bool
  | a :: b :: c :: d :: _ => a == '\n' && b == '#' && c == '#' && pySpace d
  | _ => false

/-- `.*?(?=\n##\s|\Z)`: split off the shortest prefix after which the
lookahead (or the end of the string, `\Z`) is reached. -/
def dotStarSplit : List Char → List Char × List Char
  | [] => ([], [])
  | c :: cs =>
    if lookaheadHit (c :: cs) then ([], c :: cs)
    else
      let p := dotStarSplit cs
      (c :: p.1, p.2)

/-- Case-insensitive literal match (ASCII folding, as `re.IGNORECASE` does
on ASCII): returns the consumed prefix and the remainder. -/
def stripCI : List Char → List Char → Option (List Char × List Char)
  | [], l => some ([], l)
  | _ :: _, [] => none
  | p :: ps, c :: cs =>
    if c.toLower == p then (stripCI ps cs).map (fun q => (c :: q.1, q.2))
    else none

/-- Match `##\s+screenshots\b.*?(?=\n##\s|\Z)` at the head of the list.
Returns `(matched region, remainder)`. -/
def matchAt : List Char → Option (List Char × List Char)
  | c1 :: c2 :: rest =>
    if c1 == '#' && c2 == '#' then
      let ws := rest.takeWhile pySpace
      let r2 := rest.dropWhile pySpace
      if ws == [] then none
      else
        match stripCI "screenshots".toList r2 with
        | none => none
        | some (lit, r3) =>
          if (match r3 with | [] => true | c :: _ => !pyWordChar c) then
            let p := dotStarSplit r3
            some (c1 :: c2 :: (ws ++ lit ++ p.1), p.2)
          else none
    else none
  | _ => none

/-- `SCREENSHOTS_PATTERN.search`: scan every position, attempting the match
at line starts only (`^` under `re.MULTILINE`).  The flag records whether
the current position is a line start. -/
def searchFrom : Bool → List Char → Bool
  | _, [] => false
  | b, c :: cs => (b && (matchAt (c :: cs)).isSome) || searchFrom (c == '\n') cs

/-! ## `re.sub` replacement templates

`update_pr` substitutes the rendered section via `SCREENSHOTS_PATTERN.sub`.
Python first parses the replacement string as a template
(`re._parser.parse_template`): `\\` and the ASCII control escapes are
literal characters, `\g<0>` (and only group 0 — the pattern has no capture
groups) expands to the matched text, a three-octal-digit escape up to
`\377` is a literal character, and every other escape (`\1`…`\99`,
`\g<name>`, `\` before an ASCII letter, a trailing `\`) raises an error.
A parse error aborts the whole script, modelled as `none`. -/

inductive ReplChunk where
  | ch (c : Char)
  | group0
deriving DecidableEq

/-- Expand a parsed template at one match. -/
def renderRepl (chunks : List ReplChunk) (matched : List Char) : List Char :=
  chunks.flatMap (fun k => match k with | .ch c => [c] | .group0 => matched)

def isOctDigit (c : Char) : Bool := decide ('0' ≤ c) && decide (c ≤ '7')

/-- `\a \b \f \n \r \t \v` in a replacement template. -/
def templEscChar (c : Char) : Option Char :=
  if c == 'a' then some (Char.ofNat 0x7) else if c == 'b' then some (Char.ofNat 0x8)
  else if c == 'f' then some (Char.ofNat 0xc) else if c == 'n' then some '\n'
  else if c == 'r' then some (Char.ofNat 0xd) else if c == 't' then some '\t'
  else if c == 'v' then some (Char.ofNat 0xb) else none

def decimalVal (ds : List Char) : Nat := ds.foldl (fun a c => a * 10 + (c.toNat - '0'.toNat)) 0

def octalVal (ds : List Char) : Nat := ds.foldl (fun a c => a * 8 + (c.toNat - '0'.toNat)) 0

/-- Parse a `re.sub` replacement template; `none` is the Python `re.error`.
Fuel-indexed so the recursion is structural (every step consumes at least
one character, so the template's length is enough fuel). -/
def parseTemplateGo : Nat → List Char → Option (List ReplChunk)
  | _, [] => some []
  | 0, _ :: _ => none
  | n + 1, c :: rest =>
    if c == '\\' then
      match rest with
      | [] => none
      | e :: rs =>
        if e == '\\' then (parseTemplateGo n rs).map (.ch '\\' :: ·)
        else if e == 'g' then
          match rs with
          | '<' :: rs2 =>
            (match rs2.dropWhile (fun x => x != '>') with
             | _ :: rs3 =>
               let name := rs2.takeWhile (fun x => x != '>')
               if name == [] then none
               else if name.all Char.isDigit then
                 if decimalVal name == 0 then (parseTemplateGo n rs3).map (.group0 :: ·)
                 else none
               else none
             | [] => none)
          | _ => none
        else if e == '0' then
          let ds := (rs.takeWhile isOctDigit).take 2
          (parseTemplateGo n (rs.drop ds.length)).map (.ch (Char.ofNat (octalVal ds)) :: ·)
        else if e.isDigit then
          match rs with
          | d2 :: rs2 =>
            if d2.isDigit then
              if isOctDigit e && isOctDigit d2 then
                match rs2 with
                | d3 :: rs3 =>
                  if isOctDigit d3 then
                    let v := octalVal [e, d2, d3]
                    if v ≤ 255 then (parseTemplateGo n rs3).map (.ch (Char.ofNat v) :: ·)
                    else none
                  else none
                | [] => none
              else none
            else none
          | [] => none
        else
          match templEscChar e with
          | some t => (parseTemplateGo n rs).map (.ch t :: ·)
          | none =>
            if e.isAlpha then none
            else (parseTemplateGo n rs).map (fun ks => .ch '\\' :: .ch e :: ks)
    else (parseTemplateGo n rest).map (.ch c :: ·)

def parseTemplate (l : List Char) : Option (List ReplChunk) :=
  parseTemplateGo l.length l

/-- `noStartIn b l suf = true` iff the pattern matches at no line-start
position inside `l`, where `l` is followed by `suf` in the full document
and `b` says whether `l`'s first position is a line start. -/
def noStartIn : Bool → List Char → List Char → Bool
  | _, [], _ => true
  | b, c :: cs, suf =>
    !(b && (matchAt (c :: cs ++ suf)).isSome) && noStartIn (c == '\n') cs suf

/-- The scan of `SCREENSHOTS_PATTERN.sub`: walk the string, and at every
line start try the match; on a match emit the expanded template and resume
after the matched region (matches are non-overlapping, left to right).
Fuel-indexed so the recursion is structural; `subScan` supplies the fuel
(a matched region is never empty, so the input length suffices). -/
def subScanGo (chunks : List ReplChunk) : Nat → Bool → List Char → List Char
  | 0, _, l => l
  | _ + 1, _, [] => []
  | n + 1, b, c :: cs =>
    if b then
      match matchAt (c :: cs) with
      | some (m, r) => renderRepl chunks m ++ subScanGo chunks n (m.getLast? == some '\n') r
      | none => c :: subScanGo chunks n (c == '\n') cs
    else c :: subScanGo chunks n (c == '\n') cs

/-- `SCREENSHOTS_PATTERN.sub tpl body` with a parsed template. -/
def subScan (chunks : List ReplChunk) (b : Bool) (l : List Char) : List Char :=
  subScanGo chunks l.length b l

/-! ## `build_screenshots_section` and the `update_pr` document step

```python
def build_screenshots_section(entries):
    lines = ["## Screenshots", ""]
    for label, url in entries:
        lines.append(f"### {label}")
        lines.append(f"![{label}]({url})")
        lines.append("")
    return "\n".join(lines).rstrip() + "\n"

current_body = result.stdout.rstrip("\n")
new_section = build_screenshots_section(entries)
if SCREENSHOTS_PATTERN.search(current_body):
    new_body = SCREENSHOTS_PATTERN.sub(new_section.rstrip("\n"), current_body)
else:
    separator = "\n\n" if current_body and not current_body.endswith("\n\n") else ""
    new_body = current_body + separator + new_section
```
-/

/-- One `(label, url)` screenshot entry. -/
structure Entry where
  label : List Char
  url : List Char
deriving DecidableEq

def build_screenshots_section (entries : List Entry) : List Char :=
  let lines := ["## Screenshots".toList, []] ++
    entries.flatMap (fun e =>
      ["### ".toList ++ e.label,
       "![".toList ++ e.label ++ "](".toList ++ e.url ++ [')'],
       []])
  rstripSpace (pyJoin ['\n'] lines) ++ ['\n']

/-- The markdown block one entry contributes to the joined section, with
its leading blank-line separator. -/
def entryChunk (e : Entry) : List Char :=
  "\n\n### ".toList ++ e.label ++ "\n![".toList ++ e.label ++ "](".toList ++ e.url ++ [')']

/-- The rendered section without its trailing newline:
`build_screenshots_section entries = sectionBody entries ++ ['\n']`
(proved below).  This is both the replacement template `update_pr` hands to
`re.sub` and the text spliced into the document. -/
def sectionBody (entries : List Entry) : List Char :=
  "## Screenshots".toList ++ entries.flatMap entryChunk

/-- Labels and URLs free of newlines (which would fabricate markdown line
structure) and of backslashes (which `re.sub` would reinterpret as template
escapes). -/
@[reducible] def entriesBenign (entries : List Entry) : Prop :=
  ∀ e ∈ entries, '\n' ∉ e.label ∧ '\\' ∉ e.label ∧ '\n' ∉ e.url ∧ '\\' ∉ e.url

/-- The pure document transformation of `update_pr`: strip trailing
newlines from the fetched body, then replace the Screenshots section via
`SCREENSHOTS_PATTERN.sub` if the pattern matches, else append the rendered
section.  `none` is the `re.error` Python raises while parsing a
replacement template that contains an invalid escape. -/
def merge (d : List Char) (entries : List Entry) : Option (List Char) :=
  let current_body := rstripNewlines d
  let new_section := build_screenshots_section entries
  if searchFrom true current_body then
    (parseTemplate (rstripNewlines new_section)).map
      (fun chunks => subScan chunks true current_body)
  else
    let separator :=
      if (current_body != []) && !(pyEndsWith current_body ['\n', '\n']) then ['\n', '\n'] else []
    some (current_body ++ separator ++ new_section)

/-! ## `compress_image` (imgbb_upload.py / imgur_upload.py)

The two scripts' `compress_image` functions are identical but for the byte
ceiling (`MAX_SIZE_BYTES`) and the warning texts.  External observations —
the file's size, its lowercased suffix, and the outcome of each potential
`sips` invocation — are supplied by a `CompressEnv`. -/

def imgbb_MAX_SIZE_BYTES : Nat := 32 * 1024 * 1024

def imgur_MAX_SIZE_BYTES : Nat := 10 * 1024 * 1024

/-- Observable outcome of one `sips` invocation: the process return code,
whether the output file exists afterwards, and its size if so. -/
structure SipsOutcome where
  returncode : Int
  outExists : Bool
  outSize : Nat
deriving DecidableEq

/-- What the filesystem and the two potential `sips` runs would yield for
one input file. -/
structure CompressEnv where
  size : Nat
  ext : List Char
  sips1 : SipsOutcome
  sips2 : SipsOutcome
deriving DecidableEq

/-- Which path `compress_image` returns. -/
inductive CompressOut where
  | original
  | tmp1
  | tmp2
deriving DecidableEq

inductive CompressWarning where
  | gifOversize
  | qualityFailed
  | resizeFailed
  | stillOversize
deriving DecidableEq

structure CompressResult where
  result : CompressOut
  warnings : List CompressWarning
  sipsCalls : Nat
deriving DecidableEq

def compress_image (MAX_SIZE_BYTES : Nat) (env : CompressEnv) : CompressResult :=
  if env.size ≤ MAX_SIZE_BYTES then ⟨.original, [], 0⟩
  else if env.ext == ".gif".toList then ⟨.original, [.gifOversize], 0⟩
  else if env.sips1.returncode != 0 || !env.sips1.outExists then ⟨.original, [.qualityFailed], 1⟩
  else if env.sips1.outSize ≤ MAX_SIZE_BYTES then ⟨.tmp1, [], 1⟩
  else if env.sips2.returncode != 0 || !env.sips2.outExists then ⟨.tmp1, [.resizeFailed], 2⟩
  else if env.sips2.outSize > MAX_SIZE_BYTES then ⟨.tmp2, [.stillOversize], 2⟩
  else ⟨.tmp2, [], 2⟩

/-- `upload_image` in imgbb_upload.py hands `compress_image(filepath)` to
`curl`: the asset submitted for upload. -/
def imgbb_upload_submission (env : CompressEnv) : CompressOut :=
  (compress_image imgbb_MAX_SIZE_BYTES env).result

/-- `upload_image` in imgur_upload.py likewise. -/
def imgur_upload_submission (env : CompressEnv) : CompressOut :=
  (compress_image imgur_MAX_SIZE_BYTES env).result

/-! ## `upload_to_github` (pr_assets.py)

```python
stem = Path(filepath).stem; suffix = Path(filepath).suffix
short_id = uuid.uuid4().hex[:8]
filename = f"{stem}-{short_id}{suffix}"
with open(filepath, "rb") as f:
    content_b64 = base64.b64encode(f.read()).decode()
payload = {"message": f"chore: add PR screenshot {filename}",
           "content": content_b64, "branch": "pr-assets"}
_gh_api("PUT", f"/repos/{repo}/contents/{filename}", payload)
return f"https://raw.githubusercontent.com/{repo}/pr-assets/{filename}"
```
The random `short_id` and the path split are inputs; the file content is a
byte list. -/

def b64char (n : Nat) : Char :=
  if n < 26 then Char.ofNat ('A'.toNat + n)
  else if n < 52 then Char.ofNat ('a'.toNat + (n - 26))
  else if n < 62 then Char.ofNat ('0'.toNat + (n - 52))
  else if n == 62 then '+' else '/'

/-- `base64.b64encode` on a byte list. -/
def b64encode : List Nat → List Char
  | [] => []
  | [a] => [b64char (a / 4), b64char (a % 4 * 16), '=', '=']
  | [a, b] => [b64char (a / 4), b64char (a % 4 * 16 + b / 16), b64char (b % 16 * 4), '=']
  | a :: b :: c :: rest =>
    b64char (a / 4) :: b64char (a % 4 * 16 + b / 16) ::
    b64char (b % 16 * 4 + c / 64) :: b64char (c % 64) :: b64encode rest

/-- The JSON payload `upload_to_github` sends to the Contents API. -/
structure GhContentsPayload where
  message : List Char
  content : List Char
  branch : List Char
deriving DecidableEq

def upload_to_github (stem suffix shortId repo : List Char) (fileBytes : List Nat) :
    GhContentsPayload × List Char :=
  let filename := stem ++ ['-'] ++ shortId ++ suffix
  (⟨"chore: add PR screenshot ".toList ++ filename,
    b64encode fileBytes,
    "pr-assets".toList⟩,
   "https://raw.githubusercontent.com/".toList ++ repo ++ "/pr-assets/".toList ++ filename)

/-- `dsSafe m suf = true` iff the lookahead fires at no position inside
`m`, where `m` is followed by `suf`; under it, `dotStarSplit` passes over
`m` untouched. -/
def dsSafe : List Char → List Char → Bool
  | [], _ => true
  | c :: cs, suf => !(lookaheadHit (c :: cs ++ suf)) && dsSafe cs suf

/-- Whether the position after scanning `pre` (whose own first position
has line-start status `b`) is a line start: true iff `pre` ends in a
newline, or `pre` is empty and `b` holds. -/
def lineStartAfter (b : Bool) (pre : List Char) : Bool :=
  match pre.getLast? with
  | none => b
  | some c => c == '\n'

/-! ## Decomposition lemmas for the pattern matcher -/

theorem stripCI_decomp : ∀ (ps l t r : List Char), stripCI ps l = some (t, r) →
    l = t ++ r ∧ t.length = ps.length := by
  intro ps
  induction ps with
  | nil =>
    intro l t r h
    have hn : stripCI [] l = some ([], l) := rfl
    rw [hn] at h
    simp only [Option.some.injEq, Prod.mk.injEq] at h
    obtain ⟨h1, h2⟩ := h
    subst h1; subst h2; simp
  | cons p ps ih =>
    intro l t r h
    cases l with
    | nil =>
      have hn : stripCI (p :: ps) ([] : List Char) = none := rfl
      rw [hn] at h
      exact Option.noConfusion h
    | cons c cs =>
      simp only [stripCI] at h
      by_cases hc : c.toLower == p
      · rw [if_pos hc] at h
        cases hs : stripCI ps cs with
        | none => rw [hs] at h; exact Option.noConfusion h
        | some q =>
          obtain ⟨q1, q2⟩ := q
          rw [hs] at h
          simp only [Option.map_some', Option.some.injEq, Prod.mk.injEq] at h
          obtain ⟨h1, h2⟩ := h
          obtain ⟨hd, hl⟩ := ih cs q1 q2 hs
          subst h1; subst h2
          constructor
          · simp [hd]
          · simp [hl]
      · rw [if_neg hc] at h
        exact Option.noConfusion h

theorem dotStarSplit_decomp : ∀ l : List Char, (dotStarSplit l).1 ++ (dotStarSplit l).2 = l := by
  intro l
  induction l with
  | nil => rfl
  | cons c cs ih =>
    simp only [dotStarSplit]
    by_cases h : lookaheadHit (c :: cs)
    · rw [if_pos h]; rfl
    · rw [if_neg h]; simpa using ih

theorem dotStarSplit_snd : ∀ l : List Char,
    (dotStarSplit l).2 = [] ∨ lookaheadHit (dotStarSplit l).2 = true := by
  intro l
  induction l with
  | nil => left; rfl
  | cons c cs ih =>
    simp only [dotStarSplit]
    by_cases h : lookaheadHit (c :: cs)
    · right; rw [if_pos h]; exact h
    · rw [if_neg h]; simpa using ih

theorem matchAt_some_decomp {l m r : List Char} (h : matchAt l = some (m, r)) :
    l = m ++ r ∧ (∃ t, m = '#' :: '#' :: t) ∧ (r = [] ∨ lookaheadHit r = true) := by
  match l with
  | [] => simp [matchAt] at h
  | [c] => simp [matchAt] at h
  | c1 :: c2 :: rest =>
    simp only [matchAt] at h
    by_cases hg : (c1 == '#' && c2 == '#') = true
    · rw [if_pos hg] at h
      by_cases hw : rest.takeWhile pySpace == []
      · rw [if_pos hw] at h; exact Option.noConfusion h
      · rw [if_neg hw] at h
        cases hs : stripCI "screenshots".toList (rest.dropWhile pySpace) with
        | none => rw [hs] at h; exact Option.noConfusion h
        | some q =>
          obtain ⟨lit, r3⟩ := q
          simp only [hs] at h
          simp only [Bool.and_eq_true, beq_iff_eq] at hg
          obtain ⟨hg1, hg2⟩ := hg
          subst hg1; subst hg2
          obtain ⟨hd, _⟩ := stripCI_decomp _ _ lit r3 hs
          have hds := dotStarSplit_decomp r3
          have hsnd := dotStarSplit_snd r3
          have hrest : rest = rest.takeWhile pySpace ++ rest.dropWhile pySpace :=
            (List.takeWhile_append_dropWhile pySpace rest).symm
          cases r3 with
          | nil =>
            rw [if_pos (show (match ([] : List Char) with
              | [] => true | c :: _ => !pyWordChar c) = true from rfl)] at h
            simp only [Option.some.injEq, Prod.mk.injEq] at h
            obtain ⟨h1, h2⟩ := h
            subst h1; subst h2
            refine ⟨?_, ⟨_, rfl⟩, hsnd⟩
            conv_lhs => rw [hrest, hd, ← hds]
            simp
          | cons x xs =>
            cases hpw : pyWordChar x with
            | true =>
              rw [if_neg (by simp [hpw])] at h
              exact Option.noConfusion h
            | false =>
              rw [if_pos (by simp [hpw])] at h
              simp only [Option.some.injEq, Prod.mk.injEq] at h
              obtain ⟨h1, h2⟩ := h
              subst h1; subst h2
              refine ⟨?_, ⟨_, rfl⟩, hsnd⟩
              conv_lhs => rw [hrest, hd, ← hds]
              simp
    · rw [if_neg hg] at h; exact Option.noConfusion h

theorem matchAt_some_rest_len {l m r : List Char} (h : matchAt l = some (m, r)) :
    r.length + 2 ≤ l.length := by
  obtain ⟨hd, ⟨t, ht⟩, _⟩ := matchAt_some_decomp h
  subst hd; subst ht
  simp

theorem matchAt_ne_hash {c : Char} (l : List Char) (hc : c ≠ '#') :
    matchAt (c :: l) = none := by
  match l with
  | [] => simp [matchAt]
  | d :: ds =>
    simp only [matchAt]
    rw [if_neg]
    simp only [Bool.and_eq_true, beq_iff_eq]
    exact fun hh => hc hh.1

/-! ## Fuel and step lemmas for the substitution scan -/

theorem lineStartAfter_nil (b : Bool) : lineStartAfter b [] = b := rfl

theorem getLast?_cons_ne_none : ∀ (ds : List Char) (d : Char), (d :: ds).getLast? ≠ none := by
  intro ds
  induction ds with
  | nil => intro d h; simp at h
  | cons e es ihe => intro d h; rw [List.getLast?_cons_cons] at h; exact ihe e h

theorem lineStartAfter_cons (b : Bool) (c : Char) (cs : List Char) :
    lineStartAfter b (c :: cs) = lineStartAfter (c == '\n') cs := by
  cases cs with
  | nil => rfl
  | cons d ds =>
    simp only [lineStartAfter, List.getLast?_cons_cons]
    cases hg : (d :: ds).getLast? with
    | none => exact absurd hg (getLast?_cons_ne_none ds d)
    | some x => rfl

theorem subScanGo_nil (C : List ReplChunk) (n : Nat) (b : Bool) : subScanGo C n b [] = [] := by
  cases n <;> rfl

theorem subScanGo_fuel (C : List ReplChunk) :
    ∀ n m b (l : List Char), l.length ≤ n → l.length ≤ m →
      subScanGo C n b l = subScanGo C m b l := by
  intro n
  induction n with
  | zero =>
    intro m b l hn _
    have : l = [] := List.length_eq_zero.mp (Nat.le_zero.mp hn)
    subst this
    rw [subScanGo_nil, subScanGo_nil]
  | succ n ih =>
    intro m b l hn hm
    cases l with
    | nil => rw [subScanGo_nil, subScanGo_nil]
    | cons c cs =>
      cases m with
      | zero => simp at hm
      | succ k =>
        simp only [List.length_cons, Nat.succ_le_succ_iff] at hn hm
        simp only [subScanGo]
        cases b with
        | false =>
          simp only [Bool.false_eq_true, if_false]
          rw [ih k (c == '\n') cs hn hm]
        | true =>
          simp only [if_true]
          cases hma : matchAt (c :: cs) with
          | none => simp only [hma]; rw [ih k (c == '\n') cs hn hm]
          | some pr =>
            obtain ⟨mm, r⟩ := pr
            have hlen := matchAt_some_rest_len hma
            simp only [List.length_cons] at hlen
            simp only [hma]
            rw [ih k (mm.getLast? == some '\n') r (by omega) (by omega)]

theorem subScan_nil (C : List ReplChunk) (b : Bool) : subScan C b [] = [] := rfl

theorem subScan_match (C : List ReplChunk) {c : Char} {cs m r : List Char}
    (h : matchAt (c :: cs) = some (m, r)) :
    subScan C true (c :: cs) = renderRepl C m ++ subScan C (m.getLast? == some '\n') r := by
  have hlen := matchAt_some_rest_len h
  simp only [List.length_cons] at hlen
  show subScanGo C (cs.length + 1) true (c :: cs) = _
  simp only [subScanGo, h]
  rw [subScanGo_fuel C cs.length r.length (m.getLast? == some '\n') r (by omega) (by omega)]
  rfl

theorem subScan_copy_false (C : List ReplChunk) (c : Char) (cs : List Char) :
    subScan C false (c :: cs) = c :: subScan C (c == '\n') cs := by
  show subScanGo C (cs.length + 1) false (c :: cs) = _
  simp only [subScanGo]
  rfl

theorem subScan_copy_none (C : List ReplChunk) {c : Char} {cs : List Char}
    (h : matchAt (c :: cs) = none) :
    subScan C true (c :: cs) = c :: subScan C (c == '\n') cs := by
  show subScanGo C (cs.length + 1) true (c :: cs) = _
  simp only [subScanGo, h]
  rfl

theorem noStartIn_of_true {l suf : List Char} (h : noStartIn true l suf = true) (b : Bool) :
    noStartIn b l suf = true := by
  cases b with
  | true => exact h
  | false =>
    cases l with
    | nil => rfl
    | cons c cs =>
      simp only [noStartIn, Bool.and_eq_true] at h ⊢
      exact ⟨rfl, h.2⟩

theorem subScan_append_copy (C : List ReplChunk) :
    ∀ (pre : List Char) (b : Bool) (suf : List Char), noStartIn b pre suf = true →
      subScan C b (pre ++ suf) = pre ++ subScan C (lineStartAfter b pre) suf := by
  intro pre
  induction pre with
  | nil => intro b suf _; rw [lineStartAfter_nil]; rfl
  | cons c cs ih =>
    intro b suf h
    simp only [noStartIn, Bool.and_eq_true, Bool.not_eq_true'] at h
    obtain ⟨h1, h2⟩ := h
    rw [lineStartAfter_cons]
    cases b with
    | false =>
      show subScan C false (c :: (cs ++ suf)) = _
      rw [subScan_copy_false, ih (c == '\n') suf h2]
      rfl
    | true =>
      simp only [Bool.true_and] at h1
      have h1' : matchAt (c :: (cs ++ suf)) = none := by
        cases hmm : matchAt (c :: (cs ++ suf)) with
        | none => rfl
        | some p =>
          rw [show c :: cs ++ suf = c :: (cs ++ suf) from rfl, hmm] at h1
          simp at h1
      show subScan C true (c :: (cs ++ suf)) = _
      rw [subScan_copy_none C h1', ih (c == '\n') suf h2]
      rfl

theorem subScan_id_of_noStart (C : List ReplChunk) (l : List Char) (b : Bool)
    (h : noStartIn b l [] = true) : subScan C b l = l := by
  have h2 := subScan_append_copy C l b [] h
  rw [subScan_nil, List.append_nil] at h2
  exact h2

theorem searchFrom_append_match :
    ∀ (pre : List Char) (b : Bool) (rest : List Char),
      lineStartAfter b pre = true → (matchAt rest).isSome = true →
      searchFrom b (pre ++ rest) = true := by
  intro pre
  induction pre with
  | nil =>
    intro b rest hb hm
    rw [lineStartAfter_nil] at hb
    subst hb
    cases rest with
    | nil => simp [matchAt] at hm
    | cons c cs => simp only [searchFrom, Bool.true_and, hm, Bool.true_or]
  | cons c cs ih =>
    intro b rest hb hm
    rw [lineStartAfter_cons] at hb
    show searchFrom b (c :: (cs ++ rest)) = true
    simp only [searchFrom, Bool.or_eq_true]
    right
    exact ih (c == '\n') rest hb hm

/-! ## The stripped body never ends in a newline -/

theorem dropWhile_head_not {p : Char → Bool} :
    ∀ (l : List Char) {x : Char} {xs : List Char}, l.dropWhile p = x :: xs → p x = false := by
  intro l
  induction l with
  | nil => intro x xs h; simp [List.dropWhile] at h
  | cons c cs ih =>
    intro x xs h
    by_cases hc : p c
    · rw [List.dropWhile_cons_of_pos hc] at h
      exact ih h
    · rw [List.dropWhile_cons_of_neg hc] at h
      obtain ⟨h1, _⟩ := List.cons.injEq .. ▸ h
      rw [← h1]
      exact Bool.not_eq_true _ ▸ hc

theorem rstripNewlines_getLast (d : List Char) :
    rstripNewlines d = [] ∨ ¬ (rstripNewlines d).getLast? = some '\n' := by
  unfold rstripNewlines
  cases hdw : d.reverse.dropWhile (fun c => c == '\n') with
  | nil => left; rfl
  | cons x xs =>
    right
    intro hsome
    have hx : ((x :: xs).reverse).getLast? = some x := by
      rw [← List.head?_reverse, List.reverse_reverse]
      rfl
    rw [hx] at hsome
    have hpx := dropWhile_head_not d.reverse hdw
    simp only [Option.some.injEq] at hsome
    rw [hsome] at hpx
    simp at hpx

theorem rstripNewlines_eq_self {l : List Char}
    (h : ∀ x, l.getLast? = some x → x ≠ '\n') : rstripNewlines l = l := by
  unfold rstripNewlines
  cases hl : l.reverse with
  | nil =>
    have : l = [] := List.reverse_eq_nil_iff.mp hl
    rw [this]
    rfl
  | cons x xs =>
    have hx : l.getLast? = some x := by
      rw [← List.head?_reverse, hl]
      rfl
    rw [List.dropWhile_cons_of_neg (by simpa using h x hx)]
    rw [← hl, List.reverse_reverse]

theorem pyEndsWith_nn_getLast {l : List Char} (h : pyEndsWith l ['\n', '\n'] = true) :
    l.getLast? = some '\n' := by
  unfold pyEndsWith at h
  have hd : l.drop (l.length - 2) = ['\n', '\n'] := by
    exact beq_iff_eq.mp h
  have := List.take_append_drop (l.length - 2) l
  rw [hd] at this
  rw [← this]
  rw [show (List.take (l.length - 2) l ++ ['\n', '\n']) =
        (List.take (l.length - 2) l ++ ['\n']) ++ ['\n'] by simp]
  exact List.getLast?_concat _

/-- The fetched body, stripped of trailing newlines, never satisfies
`endswith("\n\n")`; the separator therefore only tests emptiness. -/
theorem merge_append_eq (d : List Char) (entries : List Entry)
    (h : searchFrom true (rstripNewlines d) = false) :
    merge d entries = some (rstripNewlines d ++
      (if rstripNewlines d = [] then ([] : List Char) else ['\n', '\n']) ++
      build_screenshots_section entries) := by
  unfold merge
  rw [if_neg (by rw [h]; exact Bool.false_ne_true)]
  have hsep : (if ((rstripNewlines d != []) && !(pyEndsWith (rstripNewlines d) ['\n', '\n']))
        then ['\n', '\n'] else ([] : List Char)) =
      (if rstripNewlines d = [] then ([] : List Char) else ['\n', '\n']) := by
    rcases rstripNewlines_getLast d with hnil | hlast
    · rw [hnil]
      rfl
    · by_cases hb : rstripNewlines d = []
      · rw [hb]; rfl
      · rw [if_neg hb]
        have hpe : pyEndsWith (rstripNewlines d) ['\n', '\n'] = false := by
          cases hq : pyEndsWith (rstripNewlines d) ['\n', '\n'] with
          | false => rfl
          | true => exact absurd (pyEndsWith_nn_getLast hq) hlast
        have hcond : ((rstripNewlines d != []) && !(pyEndsWith (rstripNewlines d) ['\n', '\n'])) = true := by
          rw [hpe]
          simp [hb]
        rw [if_pos hcond]
  rw [hsep]

/-! ## Claims about the compressor and the backends -/

theorem compress_image_small (MAX_SIZE_BYTES : Nat) (env : CompressEnv)
    (h : env.size ≤ MAX_SIZE_BYTES) :
    compress_image MAX_SIZE_BYTES env = ⟨.original, [], 0⟩ := by
  unfold compress_image
  rw [if_pos h]

/-- Claim C6: for every asset whose byte size is at most the backend's
ceiling, `compress_image` returns the original path unchanged, with no
warning and zero `sips` invocations. -/
theorem C6_small_asset_unchanged (MAX_SIZE_BYTES : Nat) (env : CompressEnv)
    (h : env.size ≤ MAX_SIZE_BYTES) :
    compress_image MAX_SIZE_BYTES env = ⟨.original, [], 0⟩ :=
  compress_image_small MAX_SIZE_BYTES env h

theorem C6_witness :
    compress_image imgbb_MAX_SIZE_BYTES ⟨1000, ".png".toList, ⟨0, true, 10⟩, ⟨0, true, 10⟩⟩ =
      ⟨.original, [], 0⟩ :=
  C6_small_asset_unchanged imgbb_MAX_SIZE_BYTES _ (by decide)

/-- Claim C7: an over-ceiling `.gif` asset is returned unchanged with the
oversize-GIF warning and zero `sips` invocations. -/
theorem C7_gif_skipped (MAX_SIZE_BYTES : Nat) (env : CompressEnv)
    (hsize : MAX_SIZE_BYTES < env.size) (hext : env.ext = ".gif".toList) :
    compress_image MAX_SIZE_BYTES env = ⟨.original, [.gifOversize], 0⟩ := by
  unfold compress_image
  rw [if_neg (by omega), if_pos (beq_iff_eq.mpr hext)]

theorem C7_witness :
    compress_image imgur_MAX_SIZE_BYTES ⟨20000000, ".gif".toList, ⟨0, true, 10⟩, ⟨0, true, 10⟩⟩ =
      ⟨.original, [.gifOversize], 0⟩ :=
  C7_gif_skipped imgur_MAX_SIZE_BYTES _ (by decide) (by decide)

/-- Case analysis of `compress_image` beyond the fast path and the GIF
exclusion; shared by several claims. -/
theorem compress_image_cases (MAX_SIZE_BYTES : Nat) (env : CompressEnv)
    (hsize : MAX_SIZE_BYTES < env.size) (hext : env.ext ≠ ".gif".toList) :
    ((env.sips1.returncode ≠ 0 ∨ env.sips1.outExists = false) →
       compress_image MAX_SIZE_BYTES env = ⟨.original, [.qualityFailed], 1⟩) ∧
    (env.sips1.returncode = 0 → env.sips1.outExists = true →
       env.sips1.outSize ≤ MAX_SIZE_BYTES →
       compress_image MAX_SIZE_BYTES env = ⟨.tmp1, [], 1⟩) ∧
    (env.sips1.returncode = 0 → env.sips1.outExists = true →
       MAX_SIZE_BYTES < env.sips1.outSize →
       (env.sips2.returncode ≠ 0 ∨ env.sips2.outExists = false) →
       compress_image MAX_SIZE_BYTES env = ⟨.tmp1, [.resizeFailed], 2⟩) ∧
    (env.sips1.returncode = 0 → env.sips1.outExists = true →
       MAX_SIZE_BYTES < env.sips1.outSize →
       env.sips2.returncode = 0 → env.sips2.outExists = true →
       compress_image MAX_SIZE_BYTES env =
         ⟨.tmp2, if MAX_SIZE_BYTES < env.sips2.outSize then [.stillOversize] else [], 2⟩) ∧
    ((compress_image MAX_SIZE_BYTES env).result = .original ∨
     (compress_image MAX_SIZE_BYTES env).result = .tmp1 ∨
     (compress_image MAX_SIZE_BYTES env).result = .tmp2) := by
  have hn1 : ¬ env.size ≤ MAX_SIZE_BYTES := by omega
  have hgif : (env.ext == ".gif".toList) = false := by
    cases hq : env.ext == ".gif".toList with
    | false => rfl
    | true => exact absurd (beq_iff_eq.mp hq) hext
  have hgif' : ¬ (env.ext == ".gif".toList) = true := by rw [hgif]; exact Bool.false_ne_true
  refine ⟨?_, ?_, ?_, ?_, ?_⟩
  · intro h1
    unfold compress_image
    rw [if_neg hn1, if_neg hgif', if_pos ?_]
    rcases h1 with h1 | h1
    · simp [bne_iff_ne, h1]
    · simp [h1]
  · intro h1 h2 h3
    unfold compress_image
    rw [if_neg hn1, if_neg hgif', if_neg (by simp [h1, h2]), if_pos h3]
  · intro h1 h2 h3 h4
    unfold compress_image
    rw [if_neg hn1, if_neg hgif', if_neg (by simp [h1, h2]), if_neg (by omega), if_pos ?_]
    rcases h4 with h4 | h4
    · simp [bne_iff_ne, h4]
    · simp [h4]
  · intro h1 h2 h3 h4 h5
    unfold compress_image
    rw [if_neg hn1, if_neg hgif', if_neg (by simp [h1, h2]), if_neg (by omega),
      if_neg (by simp [h4, h5])]
    by_cases h6 : MAX_SIZE_BYTES < env.sips2.outSize
    · rw [if_pos h6, if_pos h6]
    · rw [if_neg h6, if_neg h6]
  · cases hres : (compress_image MAX_SIZE_BYTES env).result with
    | original => exact Or.inl rfl
    | tmp1 => exact Or.inr (Or.inl rfl)
    | tmp2 => exact Or.inr (Or.inr rfl)

/-- Claim C8: for an over-ceiling non-GIF asset the pipeline degrades but
never aborts: a failed stage A yields the original with a warning; a
successful stage A under the ceiling is returned; a failed stage B yields
stage A's output with a warning; otherwise stage B's output is returned,
with a final warning exactly when it still exceeds the ceiling — and the
result is always one of the original, stage A's, or stage B's file. -/
theorem C8_failures_never_abort (MAX_SIZE_BYTES : Nat) (env : CompressEnv)
    (hsize : MAX_SIZE_BYTES < env.size) (hext : env.ext ≠ ".gif".toList) :
    ((env.sips1.returncode ≠ 0 ∨ env.sips1.outExists = false) →
       compress_image MAX_SIZE_BYTES env = ⟨.original, [.qualityFailed], 1⟩) ∧
    (env.sips1.returncode = 0 → env.sips1.outExists = true →
       env.sips1.outSize ≤ MAX_SIZE_BYTES →
       compress_image MAX_SIZE_BYTES env = ⟨.tmp1, [], 1⟩) ∧
    (env.sips1.returncode = 0 → env.sips1.outExists = true →
       MAX_SIZE_BYTES < env.sips1.outSize →
       (env.sips2.returncode ≠ 0 ∨ env.sips2.outExists = false) →
       compress_image MAX_SIZE_BYTES env = ⟨.tmp1, [.resizeFailed], 2⟩) ∧
    (env.sips1.returncode = 0 → env.sips1.outExists = true →
       MAX_SIZE_BYTES < env.sips1.outSize →
       env.sips2.returncode = 0 → env.sips2.outExists = true →
       compress_image MAX_SIZE_BYTES env =
         ⟨.tmp2, if MAX_SIZE_BYTES < env.sips2.outSize then [.stillOversize] else [], 2⟩) ∧
    ((compress_image MAX_SIZE_BYTES env).result = .original ∨
     (compress_image MAX_SIZE_BYTES env).result = .tmp1 ∨
     (compress_image MAX_SIZE_BYTES env).result = .tmp2) :=
  compress_image_cases MAX_SIZE_BYTES env hsize hext

theorem C8_witness :
    compress_image imgbb_MAX_SIZE_BYTES ⟨40000000, ".jpg".toList, ⟨1, false, 0⟩, ⟨0, true, 0⟩⟩ =
      ⟨.original, [.qualityFailed], 1⟩ :=
  (C8_failures_never_abort imgbb_MAX_SIZE_BYTES _ (by decide) (by decide)).1 (Or.inl (by decide))

/-- Claim C9 (amended): the DirectAPI backend (imgbb) uploads the output of
`compress_image` under its 32 MiB ceiling, the Base64API backend (imgur)
does the same under its 10 MiB ceiling — the two ceilings really gate the
compressor: an asset between the two ceilings passes imgbb's fast path
untouched while imgur re-encodes it — but the version-control ContentAPI
backend (`upload_to_github`) uploads the base64 of the original file bytes
with no compressor invocation and no ceiling at all. -/
theorem C9_backend_ceilings :
    imgbb_MAX_SIZE_BYTES = 32 * 1024 * 1024 ∧
    imgur_MAX_SIZE_BYTES = 10 * 1024 * 1024 ∧
    (∀ env : CompressEnv, env.size ≤ imgbb_MAX_SIZE_BYTES →
      imgbb_upload_submission env = .original ∧
      (compress_image imgbb_MAX_SIZE_BYTES env).sipsCalls = 0) ∧
    (∀ env : CompressEnv, imgur_MAX_SIZE_BYTES < env.size → env.ext ≠ ".gif".toList →
      env.sips1.returncode = 0 → env.sips1.outExists = true →
      imgur_upload_submission env ≠ .original) ∧
    (∀ stem suffix shortId repo fileBytes,
      (upload_to_github stem suffix shortId repo fileBytes).1.content = b64encode fileBytes) := by
  refine ⟨rfl, rfl, ?_, ?_, ?_⟩
  · intro env h
    unfold imgbb_upload_submission
    rw [compress_image_small imgbb_MAX_SIZE_BYTES env h]
    exact ⟨rfl, rfl⟩
  · intro env hsize hext h1 h2
    have h8 := compress_image_cases imgur_MAX_SIZE_BYTES env hsize hext
    unfold imgur_upload_submission
    by_cases h3 : env.sips1.outSize ≤ imgur_MAX_SIZE_BYTES
    · rw [h8.2.1 h1 h2 h3]
      exact fun hc => CompressOut.noConfusion hc
    · by_cases h4 : env.sips2.returncode = 0 ∧ env.sips2.outExists = true
      · rw [h8.2.2.2.1 h1 h2 (by omega) h4.1 h4.2]
        exact fun hc => CompressOut.noConfusion hc
      · have h4' : env.sips2.returncode ≠ 0 ∨ env.sips2.outExists = false := by
          by_cases hr : env.sips2.returncode = 0
          · right
            cases he : env.sips2.outExists with
            | false => rfl
            | true => exact absurd ⟨hr, he⟩ h4
          · left; exact hr
        rw [h8.2.2.1 h1 h2 (by omega) h4']
        exact fun hc => CompressOut.noConfusion hc
  · intro stem suffix shortId repo fileBytes
    rfl

theorem C9_witness :
    imgbb_upload_submission ⟨20000000, ".png".toList, ⟨0, true, 50⟩, ⟨0, true, 50⟩⟩ = .original ∧
    imgur_upload_submission ⟨20000000, ".png".toList, ⟨0, true, 50⟩, ⟨0, true, 50⟩⟩ ≠ .original :=
  ⟨(C9_backend_ceilings.2.2.1 _ (by decide)).1,
   C9_backend_ceilings.2.2.2.1 _ (by decide) (by decide) (by decide) (by decide)⟩

/-- Claim C9, counterexample to the ContentAPI conjunct: a file larger than
every ceiling in the system is uploaded by `upload_to_github` as the base64
of its unmodified bytes — no compressor runs and no ceiling is applied. -/
theorem C9_counterexample :
    (upload_to_github "shot".toList ".png".toList "a1b2c3d4".toList "o/r".toList
        (List.replicate (32 * 1024 * 1024 + 1) 137)).1.content =
      b64encode (List.replicate (32 * 1024 * 1024 + 1) 137) ∧
    imgbb_MAX_SIZE_BYTES < (List.replicate (32 * 1024 * 1024 + 1) 137).length ∧
    imgur_MAX_SIZE_BYTES < (List.replicate (32 * 1024 * 1024 + 1) 137).length := by
  refine ⟨rfl, ?_, ?_⟩ <;> rw [List.length_replicate] <;> decide

/-! ## Claims about the merge step -/

set_option maxHeartbeats 1000000 in
/-- Claim C5: the concrete scenario from the spec — appending the rendered
section to `"# Title\n\nbody text\n"` yields exactly the expected document,
with the fixed markdown shape and one trailing newline. -/
theorem C5_scenario :
    merge "# Title\n\nbody text\n".toList [⟨"Login".toList, "http://x/1.png".toList⟩] =
      some "# Title\n\nbody text\n\n## Screenshots\n\n### Login\n![Login](http://x/1.png)\n".toList := by
  decide

/-- Claim C3 (amended): on a document whose stripped body has no match,
`merge` first strips the document's trailing newlines, then appends the
stripped body, one blank-line separator exactly when that body is nonempty,
and the rendered section; the *stripped* document is intact as a prefix. -/
theorem C3_append_no_match (d : List Char) (entries : List Entry)
    (h : searchFrom true (rstripNewlines d) = false) :
    merge d entries = some (rstripNewlines d ++
      (if rstripNewlines d = [] then ([] : List Char) else ['\n', '\n']) ++
      build_screenshots_section entries) :=
  merge_append_eq d entries h

set_option maxHeartbeats 1000000 in
theorem C3_witness :
    searchFrom true (rstripNewlines "x".toList) = false ∧
    merge "x".toList [⟨"L".toList, "u".toList⟩] =
      some "x\n\n## Screenshots\n\n### L\n![L](u)\n".toList := by
  refine ⟨by decide, ?_⟩
  rw [C3_append_no_match "x".toList [⟨"L".toList, "u".toList⟩] (by decide)]
  decide

set_option maxHeartbeats 1000000 in
/-- Claim C3, counterexample to the original wording: the document
`"a\n\n\n"` already ends in blank lines, yet its bytes are not left intact
as a prefix of the result — the trailing newlines are stripped first. -/
theorem C3_counterexample :
    (merge "a\n\n\n".toList [⟨"L".toList, "u".toList⟩]).map
      (fun r => "a\n\n\n".toList.isPrefixOf r) = some false := by
  decide

set_option maxHeartbeats 1000000 in
/-- Claim C4, counterexample to the original wording: a document whose
Screenshots heading line has leading whitespace before `##` is *not*
recognized — a fresh section is appended instead of replacing it. -/
theorem C4_counterexample :
    merge " ## Screenshots\nx".toList [⟨"L".toList, "u".toList⟩] =
      some " ## Screenshots\nx\n\n## Screenshots\n\n### L\n![L](u)\n".toList := by
  decide

/-- Claim C4 (amended): the pattern requires `##` at the very start of a
line; a heading preceded by a (non-newline) whitespace character is not
recognized, and `merge` appends a fresh section after the whole document. -/
theorem C4_leading_whitespace_appends (c : Char) (entries : List Entry)
    (hsp : pySpace c = true) (hnl : c ≠ '\n') :
    merge (c :: "## Screenshots\nbody".toList) entries =
      some ((c :: "## Screenshots\nbody".toList) ++ ['\n', '\n'] ++
        build_screenshots_section entries) := by
  have hc : c ≠ '#' := by
    intro he
    rw [he] at hsp
    exact absurd hsp (by decide)
  have h1 : (c :: "## Screenshots\nbody".toList).reverse =
      'y' :: ("dob\nstohsneercS ##".toList ++ [c]) := by
    rw [List.reverse_cons]
    rw [show ("## Screenshots\nbody".toList).reverse =
          'y' :: "dob\nstohsneercS ##".toList from by decide]
    rfl
  have hbody : rstripNewlines (c :: "## Screenshots\nbody".toList) =
      c :: "## Screenshots\nbody".toList := by
    unfold rstripNewlines
    rw [h1, List.dropWhile_cons_of_neg (by decide), ← h1, List.reverse_reverse]
  have hsearch : searchFrom true (c :: "## Screenshots\nbody".toList) = false := by
    show ((true && (matchAt (c :: "## Screenshots\nbody".toList)).isSome) ||
        searchFrom (c == '\n') "## Screenshots\nbody".toList) = false
    rw [matchAt_ne_hash _ hc, beq_eq_false_iff_ne.mpr hnl]
    decide
  have happ := merge_append_eq (c :: "## Screenshots\nbody".toList) entries
    (by rw [hbody]; exact hsearch)
  rw [hbody] at happ
  rw [happ, if_neg (by simp)]

set_option maxHeartbeats 400000 in
theorem C4_witness :
    pySpace ' ' = true ∧ (' ' ≠ '\n') ∧
    merge (' ' :: "## Screenshots\nbody".toList) [⟨"L".toList, "u".toList⟩] =
      some ((' ' :: "## Screenshots\nbody".toList) ++ ['\n', '\n'] ++
        build_screenshots_section [⟨"L".toList, "u".toList⟩]) :=
  ⟨by decide, by decide,
   C4_leading_whitespace_appends ' ' [⟨"L".toList, "u".toList⟩] (by decide) (by decide)⟩

set_option maxHeartbeats 1000000 in
/-- Claim C1, counterexample: merging twice is not the same as merging
once — the second merge strips the trailing newline the first merge's
appended section ends with. -/
theorem C1_counterexample :
    ((merge [] [⟨['L'], ['u']⟩]).bind (fun r => merge r [⟨['L'], ['u']⟩])) ≠
      merge [] [⟨['L'], ['u']⟩] := by
  decide

set_option maxHeartbeats 1000000 in
/-- Claim C2, counterexample to the original wording: on a document with
exactly one matched region followed by a `## ` heading but ending in a
newline, the bytes from the terminating heading onward are *not* all
preserved — the trailing newline is stripped before substitution. -/
theorem C2_counterexample :
    (merge "## Screenshots\nold\n## End\n".toList [⟨['L'], ['u']⟩]).map
      (fun r => "## End\n".toList.isSuffixOf r) = some false := by
  decide

/-! ## Structure of the rendered section -/

theorem pyJoin_cons_cons (sep x y : List Char) (xs : List (List Char)) :
    pyJoin sep (x :: y :: xs) = x ++ sep ++ pyJoin sep (y :: xs) := rfl

theorem pyJoin_g : ∀ entries : List Entry,
    ['\n'] ++ pyJoin ['\n'] ([] :: entries.flatMap (fun e =>
      ["### ".toList ++ e.label,
       "![".toList ++ e.label ++ "](".toList ++ e.url ++ [')'], []])) =
    entries.flatMap entryChunk ++ ['\n'] := by
  intro entries
  induction entries with
  | nil => rfl
  | cons e es ih =>
    rw [List.flatMap_cons, List.flatMap_cons]
    simp only [List.cons_append, List.nil_append]
    rw [pyJoin_cons_cons, pyJoin_cons_cons, pyJoin_cons_cons]
    simp only [entryChunk, List.append_assoc, List.nil_append, List.cons_append] at ih ⊢
    rw [ih]
    rw [show ("\n\n### ".toList : List Char) = '\n' :: '\n' :: "### ".toList from rfl,
        show ("\n![".toList : List Char) = '\n' :: "![".toList from rfl]
    simp [List.cons_append]

theorem flatMap_entryChunk_last (entries : List Entry) :
    entries = [] ∨ ∃ t, entries.flatMap entryChunk = t ++ [')'] := by
  induction entries with
  | nil => left; rfl
  | cons e es ih =>
    right
    rcases ih with h | ⟨t, ht⟩
    · subst h
      refine ⟨"\n\n### ".toList ++ e.label ++ "\n![".toList ++ e.label ++ "](".toList ++ e.url, ?_⟩
      simp [entryChunk]
    · refine ⟨entryChunk e ++ t, ?_⟩
      rw [List.flatMap_cons, ht]
      simp

theorem rstripSpace_concat_nl (x : List Char) (c : Char) (hc : pySpace c = false) :
    rstripSpace ((x ++ [c]) ++ ['\n']) = x ++ [c] := by
  unfold rstripSpace
  have h1 : (((x ++ [c]) ++ ['\n']).reverse : List Char) = '\n' :: c :: x.reverse := by simp
  rw [h1, List.dropWhile_cons_of_pos (by decide), List.dropWhile_cons_of_neg (by simp [hc])]
  simp

theorem build_eq (entries : List Entry) :
    build_screenshots_section entries = sectionBody entries ++ ['\n'] := by
  unfold build_screenshots_section sectionBody
  simp only [List.cons_append, List.nil_append]
  rw [pyJoin_cons_cons]
  rw [show ("## Screenshots".toList ++ ['\n'] ++ pyJoin ['\n'] ([] :: entries.flatMap (fun e =>
      ["### ".toList ++ e.label,
       "![".toList ++ e.label ++ "](".toList ++ e.url ++ [')'], []])) : List Char) =
    "## Screenshots".toList ++ (['\n'] ++ pyJoin ['\n'] ([] :: entries.flatMap (fun e =>
      ["### ".toList ++ e.label,
       "![".toList ++ e.label ++ "](".toList ++ e.url ++ [')'], []]))) from by simp]
  rw [pyJoin_g]
  rcases flatMap_entryChunk_last entries with h | ⟨t, ht⟩
  · rw [h]
    simp only [List.flatMap_nil, List.append_nil, List.nil_append]
    rw [show ("## Screenshots".toList : List Char) = "## Screenshot".toList ++ ['s'] from by decide]
    rw [rstripSpace_concat_nl _ 's' (by decide)]
  · rw [ht]
    rw [show ("## Screenshots".toList ++ (t ++ [')'] ++ ['\n']) : List Char) =
      (("## Screenshots".toList ++ t) ++ [')']) ++ ['\n'] from by simp]
    rw [rstripSpace_concat_nl _ ')' (by decide)]
    simp

theorem sectionBody_cons (entries : List Entry) :
    sectionBody entries =
      '#' :: '#' :: (' ' :: ("Screenshots".toList ++ entries.flatMap entryChunk)) := rfl

theorem sectionBody_ne_nil (entries : List Entry) : sectionBody entries ≠ [] := by
  rw [sectionBody_cons]
  simp

theorem sectionBody_getLast (entries : List Entry) :
    ∃ c, (sectionBody entries).getLast? = some c ∧ c ≠ '\n' ∧ pySpace c = false := by
  rcases flatMap_entryChunk_last entries with h | ⟨t, ht⟩
  · refine ⟨'s', ?_, by decide, by decide⟩
    unfold sectionBody
    rw [h]
    decide
  · refine ⟨')', ?_, by decide, by decide⟩
    unfold sectionBody
    rw [ht]
    rw [show ("## Screenshots".toList ++ (t ++ [')']) : List Char) =
      ("## Screenshots".toList ++ t) ++ [')'] from by simp]
    exact List.getLast?_concat _

theorem rstripNewlines_append_nl {x : List Char} (hx : x ≠ [])
    (h : ∀ c, x.getLast? = some c → c ≠ '\n') :
    rstripNewlines (x ++ ['\n']) = x := by
  unfold rstripNewlines
  have h1 : ((x ++ ['\n']).reverse : List Char) = '\n' :: x.reverse := by simp
  rw [h1, List.dropWhile_cons_of_pos (by decide)]
  cases hrev : x.reverse with
  | nil => exact absurd (List.reverse_eq_nil_iff.mp hrev) hx
  | cons y ys =>
    have hy : x.getLast? = some y := by
      rw [← List.head?_reverse, hrev]
      rfl
    rw [List.dropWhile_cons_of_neg (by simpa using h y hy), ← hrev, List.reverse_reverse]

theorem section_template (entries : List Entry) :
    rstripNewlines (build_screenshots_section entries) = sectionBody entries := by
  rw [build_eq]
  obtain ⟨c, hc, hcn, _⟩ := sectionBody_getLast entries
  apply rstripNewlines_append_nl (sectionBody_ne_nil entries)
  intro c' hc'
  rw [hc] at hc'
  obtain rfl := Option.some.injEq .. ▸ hc'
  exact hcn

theorem parseTemplateGo_no_backslash : ∀ n (l : List Char), l.length ≤ n → '\\' ∉ l →
    parseTemplateGo n l = some (l.map ReplChunk.ch) := by
  intro n
  induction n with
  | zero =>
    intro l hn _
    have : l = [] := List.length_eq_zero.mp (Nat.le_zero.mp hn)
    subst this
    rfl
  | succ n ih =>
    intro l hn hb
    cases l with
    | nil => rfl
    | cons c rest =>
      have hc : c ≠ '\\' := fun he => hb (he ▸ List.mem_cons_self c rest)
      simp only [parseTemplateGo]
      rw [if_neg (by simpa using hc)]
      rw [ih rest (by simpa using hn) (fun hm => hb (List.mem_cons_of_mem c hm))]
      rfl

theorem parseTemplate_no_backslash {l : List Char} (hb : '\\' ∉ l) :
    parseTemplate l = some (l.map ReplChunk.ch) :=
  parseTemplateGo_no_backslash l.length l (Nat.le_refl _) hb

theorem renderRepl_lits (l m : List Char) : renderRepl (l.map ReplChunk.ch) m = l := by
  induction l with
  | nil => rfl
  | cons c cs ih =>
    simp only [renderRepl, List.map_cons, List.flatMap_cons] at ih ⊢
    rw [ih]
    rfl

theorem sectionBody_no_backslash (entries : List Entry) (hb : entriesBenign entries) :
    '\\' ∉ sectionBody entries := by
  unfold sectionBody
  intro hm
  rw [List.mem_append] at hm
  rcases hm with hm | hm
  · exact absurd hm (by decide)
  · rw [List.mem_flatMap] at hm
    obtain ⟨e, he, hmem⟩ := hm
    obtain ⟨_, h2, _, h4⟩ := hb e he
    unfold entryChunk at hmem
    simp only [List.mem_append] at hmem
    rcases hmem with (((((hx | hx) | hx) | hx) | hx) | hx) | hx
    · exact absurd hx (by decide)
    · exact absurd hx h2
    · exact absurd hx (by decide)
    · exact absurd hx h2
    · exact absurd hx (by decide)
    · exact absurd hx h4
    · exact absurd hx (by decide)

/-! ## Where the non-greedy scan stops inside a rendered section -/

theorem lookaheadHit_ne_nl {c : Char} (hc : c ≠ '\n') (l : List Char) :
    lookaheadHit (c :: l) = false := by
  match l with
  | [] => rfl
  | [_] => rfl
  | [_, _] => rfl
  | a :: b :: d :: t =>
    show (c == '\n' && a == '#' && b == '#' && pySpace d) = false
    simp [beq_eq_false_iff_ne.mpr hc]

theorem ds_cons_neg {c : Char} {cs : List Char} (h : lookaheadHit (c :: cs) = false) :
    dotStarSplit (c :: cs) = (c :: (dotStarSplit cs).1, (dotStarSplit cs).2) := by
  simp only [dotStarSplit]
  rw [if_neg (by simp [h])]

theorem ds_of_shape {r : List Char} (hr : r = [] ∨ lookaheadHit r = true) :
    dotStarSplit r = ([], r) := by
  rcases hr with rfl | h
  · rfl
  · cases r with
    | nil => rfl
    | cons c cs =>
      simp only [dotStarSplit]
      rw [if_pos h]

theorem ds_append_of_safe : ∀ (m suf : List Char), dsSafe m suf = true →
    dotStarSplit (m ++ suf) = (m ++ (dotStarSplit suf).1, (dotStarSplit suf).2) := by
  intro m
  induction m with
  | nil => intro suf _; simp
  | cons c cs ih =>
    intro suf h
    simp only [dsSafe, Bool.and_eq_true, Bool.not_eq_true'] at h
    obtain ⟨h1, h2⟩ := h
    rw [List.cons_append, ds_cons_neg (by simpa using h1)]
    rw [ih suf h2]
    simp

theorem dsSafe_append (a b suf : List Char) :
    dsSafe (a ++ b) suf = (dsSafe a (b ++ suf) && dsSafe b suf) := by
  induction a with
  | nil => simp [dsSafe]
  | cons c cs ih =>
    simp only [List.cons_append, dsSafe, List.append_eq]
    rw [ih, List.append_assoc, ← Bool.and_assoc]

theorem dsSafe_nonl (m suf : List Char) (h : ∀ x ∈ m, x ≠ '\n') : dsSafe m suf = true := by
  induction m with
  | nil => rfl
  | cons c cs ih =>
    simp only [dsSafe, Bool.and_eq_true, Bool.not_eq_true']
    refine ⟨?_, ih (fun x hx => h x (List.mem_cons_of_mem _ hx))⟩
    rw [List.cons_append, lookaheadHit_ne_nl (h c (List.mem_cons_self c cs)) _]

theorem lookaheadHit_snd {b : Char} (hb : b ≠ '#') (a : Char) (l : List Char) :
    lookaheadHit (a :: b :: l) = false := by
  match l with
  | [] => rfl
  | [_] => rfl
  | c :: d :: t =>
    show (a == '\n' && b == '#' && c == '#' && pySpace d) = false
    simp [beq_eq_false_iff_ne.mpr hb]

theorem dsSafe_L1 (R : List Char) : dsSafe ['\n', '\n', '#', '#', '#', ' '] R = true := by
  simp only [dsSafe, List.cons_append, List.nil_append, Bool.and_eq_true, Bool.not_eq_true']
  refine ⟨?_, ?_, ?_, ?_, ?_, ?_⟩
  · exact lookaheadHit_snd (show ('\n' : Char) ≠ '#' from by decide) _ _
  · rfl
  · exact lookaheadHit_ne_nl (show ('#' : Char) ≠ '\n' from by decide) _
  · exact lookaheadHit_ne_nl (show ('#' : Char) ≠ '\n' from by decide) _
  · exact lookaheadHit_ne_nl (show ('#' : Char) ≠ '\n' from by decide) _
  · exact ⟨lookaheadHit_ne_nl (show (' ' : Char) ≠ '\n' from by decide) _, trivial⟩

theorem dsSafe_L2 (R : List Char) : dsSafe ['\n', '!', '['] R = true := by
  simp only [dsSafe, List.cons_append, List.nil_append, Bool.and_eq_true, Bool.not_eq_true']
  refine ⟨?_, ?_, ?_⟩
  · exact lookaheadHit_snd (show ('!' : Char) ≠ '#' from by decide) _ _
  · exact lookaheadHit_ne_nl (show ('!' : Char) ≠ '\n' from by decide) _
  · exact ⟨lookaheadHit_ne_nl (show ('[' : Char) ≠ '\n' from by decide) _, trivial⟩

theorem entryChunk_segments (e : Entry) :
    entryChunk e = (['\n', '\n', '#', '#', '#', ' '] : List Char) ++
      (e.label ++ ((['\n', '!', '['] : List Char) ++
        (e.label ++ (([']', '('] : List Char) ++ (e.url ++ [')']))))) := by
  unfold entryChunk
  rw [show ("\n\n### ".toList : List Char) = ['\n', '\n', '#', '#', '#', ' '] from rfl,
      show ("\n![".toList : List Char) = ['\n', '!', '['] from rfl,
      show ("](".toList : List Char) = [']', '('] from rfl]
  simp [List.append_assoc]

theorem dsSafe_entryChunk (e : Entry) (hl : ∀ x ∈ e.label, x ≠ '\n')
    (hu : ∀ x ∈ e.url, x ≠ '\n') (Z : List Char) : dsSafe (entryChunk e) Z = true := by
  rw [entryChunk_segments]
  rw [dsSafe_append, dsSafe_append, dsSafe_append, dsSafe_append, dsSafe_append, dsSafe_append]
  simp only [Bool.and_eq_true]
  refine ⟨?_, ?_, ?_, ?_, ?_, ?_, ?_⟩
  · exact dsSafe_L1 _
  · exact dsSafe_nonl _ _ hl
  · exact dsSafe_L2 _
  · exact dsSafe_nonl _ _ hl
  · exact dsSafe_nonl _ _ (by decide)
  · exact dsSafe_nonl _ _ hu
  · exact dsSafe_nonl _ _ (by decide)

theorem dsSafe_flatMap (entries : List Entry) (hb : entriesBenign entries) (Z : List Char) :
    dsSafe (entries.flatMap entryChunk) Z = true := by
  induction entries with
  | nil => rfl
  | cons e es ih =>
    rw [List.flatMap_cons, dsSafe_append]
    obtain ⟨h1, -, h3, -⟩ := hb e (List.mem_cons_self e es)
    rw [dsSafe_entryChunk e (fun x hx he => h1 (he ▸ hx)) (fun x hx he => h3 (he ▸ hx)) _,
        ih (fun e' he' => hb e' (List.mem_cons_of_mem _ he'))]
    rfl

theorem ds_flatMap (entries : List Entry) (hb : entriesBenign entries) (r : List Char)
    (hr : r = [] ∨ lookaheadHit r = true) :
    dotStarSplit (entries.flatMap entryChunk ++ r) = (entries.flatMap entryChunk, r) := by
  rw [ds_append_of_safe _ _ (dsSafe_flatMap entries hb r), ds_of_shape hr]
  simp

theorem lookaheadHit_head {l : List Char} (h : lookaheadHit l = true) : ∃ t, l = '\n' :: t := by
  match l with
  | [] => rw [show lookaheadHit [] = false from rfl] at h; cases h
  | [a] => rw [show lookaheadHit [a] = false from rfl] at h; cases h
  | [a, b] => rw [show lookaheadHit [a, b] = false from rfl] at h; cases h
  | [a, b, c] => rw [show lookaheadHit [a, b, c] = false from rfl] at h; cases h
  | a :: b :: c :: d :: t =>
    have h' : (a == '\n' && b == '#' && c == '#' && pySpace d) = true := h
    simp only [Bool.and_eq_true, beq_iff_eq] at h'
    exact ⟨b :: c :: d :: t, by rw [h'.1.1.1]⟩

theorem takeWhile_space_S (X : List Char) : (' ' :: 'S' :: X).takeWhile pySpace = [' '] := rfl

theorem dropWhile_space_S (X : List Char) : (' ' :: 'S' :: X).dropWhile pySpace = 'S' :: X := rfl

theorem stripCI_scr (Z : List Char) :
    stripCI "screenshots".toList ('S' :: ("creenshots".toList ++ Z)) =
      some ("Screenshots".toList, Z) := rfl

theorem matchAt_sectionBody (entries : List Entry) (hb : entriesBenign entries) (r : List Char)
    (hr : r = [] ∨ lookaheadHit r = true) :
    matchAt (sectionBody entries ++ r) = some (sectionBody entries, r) := by
  have hflat : dotStarSplit (entries.flatMap entryChunk ++ r) =
      (entries.flatMap entryChunk, r) := ds_flatMap entries hb r hr
  have hbound : (match (entries.flatMap entryChunk ++ r) with
      | [] => true | c :: _ => !pyWordChar c) = true := by
    cases hfe : entries.flatMap entryChunk with
    | nil =>
      simp only [List.nil_append]
      rcases hr with rfl | hla
      · rfl
      · obtain ⟨t, rfl⟩ := lookaheadHit_head hla
        rfl
    | cons c cs =>
      cases entries with
      | nil => simp at hfe
      | cons e es =>
        rw [List.flatMap_cons, entryChunk_segments] at hfe
        simp only [List.cons_append] at hfe
        have hc : c = '\n' := by
          have := congrArg List.head? hfe
          simpa using this.symm
        subst hc
        rw [List.cons_append]
        rfl
  rw [sectionBody_cons]
  rw [show ("Screenshots".toList : List Char) = 'S' :: "creenshots".toList from rfl]
  simp only [List.cons_append, List.append_assoc]
  simp only [matchAt]
  rw [if_pos (show (('#' : Char) == '#' && ('#' : Char) == '#') = true from rfl)]
  rw [takeWhile_space_S, dropWhile_space_S, stripCI_scr]
  rw [show ("Screenshots".toList : List Char) = 'S' :: "creenshots".toList from rfl]
  simp only []
  rw [if_neg (show ¬ (([' '] : List Char) == []) = true from by decide)]
  rw [if_pos hbound, hflat]
  simp

/-! ## Replacing a matched region -/

theorem lineStartAfter_irrel {l : List Char} (hl : l ≠ []) (b b' : Bool) :
    lineStartAfter b l = lineStartAfter b' l := by
  cases l with
  | nil => exact absurd rfl hl
  | cons c cs =>
    unfold lineStartAfter
    cases hg : (c :: cs).getLast? with
    | none => exact absurd hg (getLast?_cons_ne_none cs c)
    | some x => rfl

theorem merge_replace_single (d : List Char) (entries : List Entry)
    (pre mid post : List Char)
    (hb : entriesBenign entries)
    (hsplit : rstripNewlines d = pre ++ (mid ++ post))
    (hls : lineStartAfter true pre = true)
    (hpre : noStartIn true pre (mid ++ post) = true)
    (hmatch : matchAt (mid ++ post) = some (mid, post))
    (hpost : noStartIn true post [] = true) :
    merge d entries = some (pre ++ (sectionBody entries ++ post)) := by
  have hsearch : searchFrom true (rstripNewlines d) = true := by
    rw [hsplit]
    exact searchFrom_append_match pre true _ hls (by rw [hmatch]; rfl)
  unfold merge
  rw [if_pos hsearch]
  rw [section_template, parseTemplate_no_backslash (sectionBody_no_backslash entries hb)]
  simp only [Option.map_some']
  congr 1
  rw [hsplit, subScan_append_copy _ pre true _ hpre, hls]
  obtain ⟨-, ⟨t, ht⟩, -⟩ := matchAt_some_decomp hmatch
  subst ht
  simp only [List.cons_append] at hmatch ⊢
  rw [subScan_match _ hmatch]
  rw [renderRepl_lits]
  rw [subScan_id_of_noStart _ post _ (noStartIn_of_true hpost _)]

set_option maxHeartbeats 1000000 in
/-- Claim C2 (amended): for a document whose trailing-newline-stripped body
decomposes as `pre ++ mid ++ post` with `mid` the unique matched region
beginning at a line start and `post` starting with a terminating `\n## `
heading, `merge` (with newline- and backslash-free labels and urls)
replaces exactly `mid` by the rendered section body: every byte of `pre`
and every byte of `post` — the bytes of the stripped body, the original
document's trailing newlines having been removed first — is preserved. -/
theorem C2_replaces_bounded_region (d : List Char) (entries : List Entry)
    (pre mid post : List Char)
    (hb : entriesBenign entries)
    (hsplit : rstripNewlines d = pre ++ (mid ++ post))
    (hls : lineStartAfter true pre = true)
    (hpre : noStartIn true pre (mid ++ post) = true)
    (hmatch : matchAt (mid ++ post) = some (mid, post))
    (hpost4 : post.take 4 = "\n## ".toList)
    (hpost : noStartIn true post [] = true) :
    merge d entries = some (pre ++ (sectionBody entries ++ post)) :=
  merge_replace_single d entries pre mid post hb hsplit hls hpre hmatch hpost

set_option maxHeartbeats 1000000 in
theorem C2_witness :
    merge "intro\n## Screenshots\nold\n## End\nrest".toList [⟨"L".toList, "u".toList⟩] =
      some ("intro\n".toList ++
        (sectionBody [⟨"L".toList, "u".toList⟩] ++ "\n## End\nrest".toList)) :=
  C2_replaces_bounded_region _ [⟨"L".toList, "u".toList⟩]
    "intro\n".toList "## Screenshots\nold".toList "\n## End\nrest".toList
    (by decide) (by decide) (by decide) (by decide) (by decide) (by decide) (by decide)

set_option maxHeartbeats 1000000 in
/-- Claim C10: when the stripped body decomposes as
`pre ++ mid1 ++ gap ++ mid2 ++ post` with two disjoint matched regions
`mid1` and `mid2` (each at a line start) and no further matches, `re.sub`
replaces *both* regions with the rendered section body — substitution
applies to all matches, not only the first. -/
theorem C10_all_matches_replaced (d : List Char) (entries : List Entry)
    (pre mid1 gap mid2 post : List Char)
    (hb : entriesBenign entries)
    (hsplit : rstripNewlines d = pre ++ (mid1 ++ (gap ++ (mid2 ++ post))))
    (hls : lineStartAfter true pre = true)
    (hpre : noStartIn true pre (mid1 ++ (gap ++ (mid2 ++ post))) = true)
    (hm1 : matchAt (mid1 ++ (gap ++ (mid2 ++ post))) = some (mid1, gap ++ (mid2 ++ post)))
    (hgapne : gap ≠ [])
    (hgap_ls : lineStartAfter true gap = true)
    (hgap : noStartIn true gap (mid2 ++ post) = true)
    (hm2 : matchAt (mid2 ++ post) = some (mid2, post))
    (hpost : noStartIn true post [] = true) :
    merge d entries =
      some (pre ++ (sectionBody entries ++ (gap ++ (sectionBody entries ++ post)))) := by
  have hsearch : searchFrom true (rstripNewlines d) = true := by
    rw [hsplit]
    exact searchFrom_append_match pre true _ hls (by rw [hm1]; rfl)
  unfold merge
  rw [if_pos hsearch]
  rw [section_template, parseTemplate_no_backslash (sectionBody_no_backslash entries hb)]
  simp only [Option.map_some']
  congr 1
  rw [hsplit, subScan_append_copy _ pre true _ hpre, hls]
  obtain ⟨-, ⟨t1, ht1⟩, -⟩ := matchAt_some_decomp hm1
  subst ht1
  simp only [List.cons_append] at hm1 ⊢
  rw [subScan_match _ hm1]
  rw [renderRepl_lits]
  rw [subScan_append_copy _ gap _ _ (noStartIn_of_true hgap _)]
  rw [lineStartAfter_irrel hgapne _ true, hgap_ls]
  obtain ⟨-, ⟨t2, ht2⟩, -⟩ := matchAt_some_decomp hm2
  subst ht2
  simp only [List.cons_append] at hm2 ⊢
  rw [subScan_match _ hm2]
  rw [renderRepl_lits]
  rw [subScan_id_of_noStart _ post _ (noStartIn_of_true hpost _)]

set_option maxHeartbeats 1000000 in
theorem C10_witness :
    merge "## Screenshots\na\n## X\n## Screenshots\nb\n## Y".toList
        [⟨"L".toList, "u".toList⟩] =
      some ([] ++ (sectionBody [⟨"L".toList, "u".toList⟩] ++
        ("\n## X\n".toList ++ (sectionBody [⟨"L".toList, "u".toList⟩] ++ "\n## Y".toList)))) :=
  C10_all_matches_replaced _ [⟨"L".toList, "u".toList⟩]
    [] "## Screenshots\na".toList "\n## X\n".toList "## Screenshots\nb".toList "\n## Y".toList
    (by decide) (by decide) (by decide) (by decide) (by decide) (by decide) (by decide)
    (by decide) (by decide) (by decide)

/-! ## Stability of the scan under a second pass -/

theorem getLast?_cons_of_ne_nil {c : Char} {cs : List Char} (h : cs ≠ []) :
    (c :: cs).getLast? = cs.getLast? := by
  cases cs with
  | nil => exact absurd rfl h
  | cons d ds => exact List.getLast?_cons_cons ..

theorem subScan_cons_nl (C : List ReplChunk) (b : Bool) (xs : List Char) :
    subScan C b ('\n' :: xs) = '\n' :: subScan C true xs := by
  cases b with
  | false =>
    rw [subScan_copy_false]
    rfl
  | true =>
    rw [subScan_copy_none C (matchAt_ne_hash xs (by decide))]
    rfl

theorem lookaheadHit_shape {l : List Char} (h : lookaheadHit l = true) :
    ∃ d t, l = '\n' :: '#' :: '#' :: d :: t ∧ pySpace d = true := by
  match l with
  | [] => rw [show lookaheadHit [] = false from rfl] at h; cases h
  | [a] => rw [show lookaheadHit [a] = false from rfl] at h; cases h
  | [a, b] => rw [show lookaheadHit [a, b] = false from rfl] at h; cases h
  | [a, b, c] => rw [show lookaheadHit [a, b, c] = false from rfl] at h; cases h
  | a :: b :: c :: d :: t =>
    have h' : (a == '\n' && b == '#' && c == '#' && pySpace d) = true := h
    simp only [Bool.and_eq_true, beq_iff_eq] at h'
    exact ⟨d, t, by rw [h'.1.1.1, h'.1.1.2, h'.1.2], h'.2⟩

theorem subScan_preserves_lookahead (entries : List Entry) :
    ∀ (f : Bool) (rest : List Char), (rest = [] ∨ lookaheadHit rest = true) →
      (subScan ((sectionBody entries).map ReplChunk.ch) f rest = [] ∨
       lookaheadHit (subScan ((sectionBody entries).map ReplChunk.ch) f rest) = true) := by
  intro f rest hr
  rcases hr with rfl | hla
  · left; rfl
  · right
    obtain ⟨d, t, rfl, hd⟩ := lookaheadHit_shape hla
    rw [subScan_cons_nl]
    cases hma : matchAt ('#' :: '#' :: d :: t) with
    | some pr =>
      obtain ⟨m, r⟩ := pr
      rw [subScan_match _ hma, renderRepl_lits, sectionBody_cons]
      simp only [List.cons_append]
      rfl
    | none =>
      rw [subScan_copy_none _ hma]
      rw [show (('#' : Char) == '\n') = false from rfl, subScan_copy_false]
      rw [show (('#' : Char) == '\n') = false from rfl, subScan_copy_false]
      show ('\n' == '\n' && '#' == '#' && '#' == '#' && pySpace d) = true
      simp [hd]

theorem matchAt_isSome_iff (c1 c2 : Char) (rest : List Char) :
    (matchAt (c1 :: c2 :: rest)).isSome = true ↔
      (c1 = '#' ∧ c2 = '#' ∧ rest.takeWhile pySpace ≠ [] ∧
       ∃ lit r3, stripCI "screenshots".toList (rest.dropWhile pySpace) = some (lit, r3) ∧
         (match r3 with | [] => true | c :: _ => !pyWordChar c) = true) := by
  simp only [matchAt]
  by_cases hg : (c1 == '#' && c2 == '#') = true
  · rw [if_pos hg]
    simp only [Bool.and_eq_true, beq_iff_eq] at hg
    by_cases hw : rest.takeWhile pySpace == []
    · rw [if_pos hw]
      simp only [Option.isSome_none, Bool.false_eq_true, false_iff]
      intro ⟨_, _, hne, _⟩
      exact hne (beq_iff_eq.mp hw)
    · rw [if_neg hw]
      cases hs : stripCI "screenshots".toList (rest.dropWhile pySpace) with
      | none =>
        simp only [Option.isSome_none, Bool.false_eq_true, false_iff]
        intro ⟨_, _, _, lit', r3', hs', _⟩
        exact Option.noConfusion hs'
      | some q =>
        obtain ⟨lit, r3⟩ := q
        simp only []
        cases r3 with
        | nil =>
          rw [if_pos (show (match ([] : List Char) with
            | [] => true | c :: _ => !pyWordChar c) = true from rfl)]
          simp only [Option.isSome_some, true_iff]
          exact ⟨hg.1, hg.2, by simpa using hw, lit, [], rfl, rfl⟩
        | cons x xs =>
          cases hpw : pyWordChar x with
          | true =>
            rw [if_neg (by simp [hpw])]
            simp only [Option.isSome_none, Bool.false_eq_true, false_iff]
            intro ⟨_, _, _, lit', r3', hs', hbd'⟩
            obtain ⟨h1, h2⟩ := Prod.mk.injEq .. ▸ Option.some.injEq .. ▸ hs'
            rw [← h2] at hbd'
            simp [hpw] at hbd'
          | false =>
            rw [if_pos (by simp [hpw])]
            simp only [Option.isSome_some, true_iff]
            exact ⟨hg.1, hg.2, by simpa using hw, lit, x :: xs, rfl, by simp [hpw]⟩
  · rw [if_neg hg]
    simp only [Option.isSome_none, Bool.false_eq_true, false_iff]
    intro ⟨h1, h2, _, _⟩
    exact hg (by simp [h1, h2])

theorem tw_dw_append_stuck (p : Char → Bool) :
    ∀ (t z : List Char), t.dropWhile p ≠ [] →
      (t ++ z).takeWhile p = t.takeWhile p ∧ (t ++ z).dropWhile p = t.dropWhile p ++ z := by
  intro t
  induction t with
  | nil => intro z h; exact absurd rfl h
  | cons c cs ih =>
    intro z h
    cases hp : p c with
    | true =>
      rw [List.dropWhile_cons_of_pos hp] at h
      obtain ⟨h1, h2⟩ := ih z h
      constructor
      · rw [List.cons_append, List.takeWhile_cons_of_pos hp, List.takeWhile_cons_of_pos hp, h1]
      · rw [List.cons_append, List.dropWhile_cons_of_pos hp, List.dropWhile_cons_of_pos hp, h2]
    | false =>
      constructor
      · rw [List.cons_append, List.takeWhile_cons_of_neg (by simp [hp]),
          List.takeWhile_cons_of_neg (by simp [hp])]
      · rw [List.cons_append, List.dropWhile_cons_of_neg (by simp [hp]),
          List.dropWhile_cons_of_neg (by simp [hp]), List.cons_append]

theorem tw_dw_append_all (p : Char → Bool) :
    ∀ (t z : List Char), t.dropWhile p = [] →
      (t ++ z).takeWhile p = t ++ z.takeWhile p ∧ (t ++ z).dropWhile p = z.dropWhile p := by
  intro t
  induction t with
  | nil => intro z _; exact ⟨rfl, rfl⟩
  | cons c cs ih =>
    intro z h
    cases hp : p c with
    | true =>
      rw [List.dropWhile_cons_of_pos hp] at h
      obtain ⟨h1, h2⟩ := ih z h
      constructor
      · rw [List.cons_append, List.takeWhile_cons_of_pos hp, h1, List.cons_append]
      · rw [List.cons_append, List.dropWhile_cons_of_pos hp, h2]
    | false =>
      rw [List.dropWhile_cons_of_neg (by simp [hp])] at h
      exact Option.noConfusion (congrArg List.head? h)

theorem stripCI_append_stuck :
    ∀ (dp lit X : List Char),
      (∀ hd t', X = hd :: t' → ∀ p ∈ lit, (hd.toLower == p) = false) →
      stripCI lit (dp ++ X) = (stripCI lit dp).map (fun q => (q.1, q.2 ++ X)) := by
  intro dp
  induction dp with
  | nil =>
    intro lit X h
    cases lit with
    | nil => rfl
    | cons p ps =>
      cases X with
      | nil => rfl
      | cons hd t' =>
        show stripCI (p :: ps) (hd :: t') = none
        simp only [stripCI]
        rw [if_neg (by simp [h hd t' rfl p (List.mem_cons_self p ps)])]
  | cons c dp' ih =>
    intro lit X h
    cases lit with
    | nil => rfl
    | cons p ps =>
      show stripCI (p :: ps) (c :: (dp' ++ X)) = _
      simp only [stripCI]
      by_cases hc : c.toLower == p
      · rw [if_pos hc, if_pos hc]
        rw [ih ps X (fun hd t' hX q hq => h hd t' hX q (List.mem_cons_of_mem p hq))]
        cases stripCI ps dp' with
        | none => rfl
        | some q => rfl
      · rw [if_neg hc, if_neg hc]
        rfl

theorem matchAt_ext_imp (c p2 : Char) (p' ta tb : List Char)
    (h : (matchAt (c :: p2 :: (p' ++ ('#' :: '#' :: ta)))).isSome = true) :
    (matchAt (c :: p2 :: (p' ++ ('#' :: '#' :: tb)))).isSome = true := by
  rw [matchAt_isSome_iff] at h ⊢
  obtain ⟨h1, h2, h3, lit, r3, hs, hbd⟩ := h
  cases hdp : p'.dropWhile pySpace with
  | nil =>
    exfalso
    obtain ⟨-, hdw⟩ := tw_dw_append_all pySpace p' ('#' :: '#' :: ta) hdp
    rw [hdw, List.dropWhile_cons_of_neg (by decide)] at hs
    rw [show stripCI "screenshots".toList ('#' :: '#' :: ta) = none from rfl] at hs
    exact Option.noConfusion hs
  | cons w dw' =>
    have hne : p'.dropWhile pySpace ≠ [] := by rw [hdp]; simp
    obtain ⟨htwa, hdwa⟩ := tw_dw_append_stuck pySpace p' ('#' :: '#' :: ta) hne
    obtain ⟨htwb, hdwb⟩ := tw_dw_append_stuck pySpace p' ('#' :: '#' :: tb) hne
    rw [htwa] at h3
    have hcond : ∀ (X : List Char) hd t', ('#' :: '#' :: X : List Char) = hd :: t' →
        ∀ q ∈ "screenshots".toList, (hd.toLower == q) = false := by
      intro X hd t' hX q hq
      injection hX with hh _
      rw [← hh]
      exact (show ∀ q ∈ "screenshots".toList, (('#' : Char).toLower == q) = false from
        by decide) q hq
    rw [hdwa, stripCI_append_stuck _ _ _ (hcond ta)] at hs
    obtain ⟨q, hq, hq2⟩ := Option.map_eq_some'.mp hs
    obtain ⟨hql, hqr⟩ := Prod.mk.injEq .. ▸ hq2
    refine ⟨h1, h2, by rw [htwb]; exact h3, q.1, q.2 ++ ('#' :: '#' :: tb), ?_, ?_⟩
    · rw [hdwb, stripCI_append_stuck _ _ _ (hcond tb), hq]
      rfl
    · cases hq2snd : q.2 with
      | nil => rfl
      | cons w2 ws =>
        rw [← hqr, hq2snd, List.cons_append] at hbd
        exact hbd

theorem matchAt_isSome_congr (c : Char) (p ta tb : List Char) :
    (matchAt ((c :: p) ++ ('#' :: '#' :: ta))).isSome =
      (matchAt ((c :: p) ++ ('#' :: '#' :: tb))).isSome := by
  cases p with
  | nil =>
    simp only [List.cons_append, List.nil_append]
    have hfa : ∀ t : List Char, (matchAt (c :: '#' :: '#' :: t)).isSome = false := by
      intro t
      cases hq : (matchAt (c :: '#' :: '#' :: t)).isSome with
      | false => rfl
      | true =>
        obtain ⟨-, -, hne, -⟩ := (matchAt_isSome_iff ..).mp hq
        exact absurd rfl hne
    rw [hfa, hfa]
  | cons p2 p' =>
    simp only [List.cons_append]
    cases hx : (matchAt (c :: p2 :: (p' ++ ('#' :: '#' :: ta)))).isSome with
    | true => exact (matchAt_ext_imp c p2 p' ta tb hx).symm
    | false =>
      cases hy : (matchAt (c :: p2 :: (p' ++ ('#' :: '#' :: tb)))).isSome with
      | false => rfl
      | true => rw [matchAt_ext_imp c p2 p' tb ta hy] at hx; cases hx

theorem matchAt_ext_nl (S : List Char) (hS : ∃ s', S = '#' :: s') :
    ∀ (y : List Char), (matchAt (y ++ ('\n' :: '\n' :: S))).isSome = true →
      (matchAt y).isSome = true := by
  intro y h
  match y with
  | [] =>
    obtain ⟨h1, -⟩ := (matchAt_isSome_iff ..).mp h
    exact absurd h1 (by decide)
  | [c] =>
    obtain ⟨-, h2, -⟩ := (matchAt_isSome_iff ..).mp h
    exact absurd h2 (by decide)
  | c1 :: c2 :: t =>
    rw [List.cons_append, List.cons_append] at h
    rw [matchAt_isSome_iff] at h ⊢
    obtain ⟨h1, h2, h3, lit, r3, hs, hbd⟩ := h
    cases hdp : t.dropWhile pySpace with
    | nil =>
      exfalso
      obtain ⟨-, hdw⟩ := tw_dw_append_all pySpace t _ hdp
      rw [hdw] at hs
      obtain ⟨s', rfl⟩ := hS
      rw [List.dropWhile_cons_of_pos (by decide), List.dropWhile_cons_of_pos (by decide),
          List.dropWhile_cons_of_neg (by decide)] at hs
      rw [show stripCI "screenshots".toList ('#' :: s') = none from rfl] at hs
      exact Option.noConfusion hs
    | cons w dw' =>
      have hne : t.dropWhile pySpace ≠ [] := by rw [hdp]; simp
      obtain ⟨htwa, hdwa⟩ := tw_dw_append_stuck pySpace t ('\n' :: '\n' :: S) hne
      rw [htwa] at h3
      have hcond : ∀ hd t', ('\n' :: '\n' :: S : List Char) = hd :: t' →
          ∀ q ∈ "screenshots".toList, (hd.toLower == q) = false := by
        intro hd t' hX q hq
        injection hX with hh _
        rw [← hh]
        exact (show ∀ q ∈ "screenshots".toList, (('\n' : Char).toLower == q) = false from
          by decide) q hq
      rw [hdwa, stripCI_append_stuck _ _ _ hcond] at hs
      obtain ⟨q, hq, hq2⟩ := Option.map_eq_some'.mp hs
      obtain ⟨hql, hqr⟩ := Prod.mk.injEq .. ▸ hq2
      refine ⟨h1, h2, h3, q.1, q.2, hdp ▸ hq, ?_⟩
      cases hq2snd : q.2 with
      | nil => rfl
      | cons w2 ws =>
        rw [← hqr, hq2snd, List.cons_append] at hbd
        exact hbd

theorem noStartIn_ext_of_searchFalse (S : List Char) (hS : ∃ s', S = '#' :: s') :
    ∀ (y : List Char) (b : Bool), searchFrom b y = false →
      noStartIn b y ('\n' :: '\n' :: S) = true := by
  intro y
  induction y with
  | nil => intro b _; rfl
  | cons c cs ih =>
    intro b h
    have h' : (b && (matchAt (c :: cs)).isSome) = false ∧ searchFrom (c == '\n') cs = false := by
      have := h
      simp only [searchFrom, Bool.or_eq_false_iff] at this
      exact this
    simp only [noStartIn, Bool.and_eq_true, Bool.not_eq_true']
    refine ⟨?_, ih (c == '\n') h'.2⟩
    cases b with
    | false => rfl
    | true =>
      simp only [Bool.true_and] at h' ⊢
      cases hy : (matchAt ((c :: cs) ++ ('\n' :: '\n' :: S))).isSome with
      | false => rfl
      | true =>
        rw [matchAt_ext_nl S hS (c :: cs) hy] at h'
        exact absurd h'.1 (by simp)

theorem subScan_decomp (entries : List Entry) :
    ∀ (n : Nat) (l : List Char), l.length ≤ n → ∀ (b : Bool),
      subScan ((sectionBody entries).map ReplChunk.ch) b l = l ∨
      ∃ q ta X, l = q ++ ('#' :: '#' :: ta) ∧
        subScan ((sectionBody entries).map ReplChunk.ch) b l =
          q ++ (sectionBody entries ++ X) := by
  intro n
  induction n with
  | zero =>
    intro l hn b
    have hl : l = [] := List.length_eq_zero.mp (Nat.le_zero.mp hn)
    subst hl
    left
    rfl
  | succ n ih =>
    intro l hn b
    cases l with
    | nil => left; rfl
    | cons c cs =>
      have hcs : cs.length ≤ n := by simpa using hn
      cases b with
      | false =>
        rw [subScan_copy_false]
        rcases ih cs hcs (c == '\n') with heq | ⟨q, ta, X, hcseq, hsub⟩
        · left; rw [heq]
        · right
          exact ⟨c :: q, ta, X, by rw [hcseq]; rfl, by rw [hsub]; rfl⟩
      | true =>
        cases hm : matchAt (c :: cs) with
        | none =>
          rw [subScan_copy_none _ hm]
          rcases ih cs hcs (c == '\n') with heq | ⟨q, ta, X, hcseq, hsub⟩
          · left; rw [heq]
          · right
            exact ⟨c :: q, ta, X, by rw [hcseq]; rfl, by rw [hsub]; rfl⟩
        | some p =>
          obtain ⟨m, r⟩ := p
          obtain ⟨hd, ⟨t, ht⟩, -⟩ := matchAt_some_decomp hm
          right
          rw [subScan_match _ hm, renderRepl_lits]
          refine ⟨[], t ++ r,
            subScan ((sectionBody entries).map ReplChunk.ch) (m.getLast? == some '\n') r,
            ?_, ?_⟩
          · rw [List.nil_append, hd, ht]
            rfl
          · rw [List.nil_append]

theorem matchAt_none_subScan (entries : List Entry) (c : Char) (cs : List Char) (f : Bool)
    (h : matchAt (c :: cs) = none) :
    matchAt (c :: subScan ((sectionBody entries).map ReplChunk.ch) f cs) = none := by
  by_cases hc : c = '#'
  · subst hc
    rcases subScan_decomp entries cs.length cs (Nat.le_refl _) f with heq |
      ⟨q, ta, X, hcseq, hsub⟩
    · rw [heq]; exact h
    · rw [hsub]
      cases hm : matchAt ('#' :: (q ++ (sectionBody entries ++ X))) with
      | none => rfl
      | some p =>
        exfalso
        have h1 : (matchAt (('#' :: q) ++
            ('#' :: '#' :: ((' ' :: ("Screenshots".toList ++ entries.flatMap entryChunk))
              ++ X)))).isSome = true := by
          rw [show ('#' :: q) ++
              ('#' :: '#' :: ((' ' :: ("Screenshots".toList ++ entries.flatMap entryChunk))
                ++ X)) = '#' :: (q ++ (sectionBody entries ++ X)) from
            by rw [sectionBody_cons]; simp]
          rw [hm]
          rfl
        rw [← matchAt_isSome_congr '#' q ta
          ((' ' :: ("Screenshots".toList ++ entries.flatMap entryChunk)) ++ X)] at h1
        rw [show ('#' :: q) ++ ('#' :: '#' :: ta) = '#' :: (q ++ ('#' :: '#' :: ta)) from rfl,
          ← hcseq, h] at h1
        exact absurd h1 (by decide)
  · exact matchAt_ne_hash _ hc

theorem sectionBody_getLast_not_nl (entries : List Entry) :
    ((sectionBody entries).getLast? == some '\n') = false := by
  obtain ⟨cc, hcc, hccn, -⟩ := sectionBody_getLast entries
  rw [hcc]
  cases hq : (some cc == some ('\n' : Char)) with
  | false => rfl
  | true => exact absurd (Option.some.inj (beq_iff_eq.mp hq)) hccn

theorem subScan_at_section (entries : List Entry) (hb : entriesBenign entries)
    (X : List Char) (hX : X = [] ∨ lookaheadHit X = true) :
    subScan ((sectionBody entries).map ReplChunk.ch) true (sectionBody entries ++ X) =
      sectionBody entries ++ subScan ((sectionBody entries).map ReplChunk.ch) false X := by
  have hma := matchAt_sectionBody entries hb X hX
  have hcons : sectionBody entries ++ X =
      '#' :: ('#' :: ((' ' :: ("Screenshots".toList ++ entries.flatMap entryChunk)) ++ X)) := by
    rw [sectionBody_cons]
    rfl
  rw [hcons] at hma
  rw [hcons, subScan_match _ hma, renderRepl_lits, sectionBody_getLast_not_nl]

theorem subScan_last (entries : List Entry) :
    ∀ (n : Nat) (l : List Char), l.length ≤ n → ∀ (b : Bool),
      l ≠ [] → l.getLast? ≠ some '\n' →
      subScan ((sectionBody entries).map ReplChunk.ch) b l ≠ [] ∧
      (subScan ((sectionBody entries).map ReplChunk.ch) b l).getLast? ≠ some '\n' := by
  intro n
  induction n with
  | zero =>
    intro l hn b hne _
    exact absurd (List.length_eq_zero.mp (Nat.le_zero.mp hn)) hne
  | succ n ih =>
    intro l hn b hne hlast
    cases l with
    | nil => exact absurd rfl hne
    | cons c cs =>
      have hstep : (c :: subScan ((sectionBody entries).map ReplChunk.ch) (c == '\n') cs) ≠ [] ∧
          (c :: subScan ((sectionBody entries).map ReplChunk.ch)
            (c == '\n') cs).getLast? ≠ some '\n' := by
        cases hcs0 : cs with
        | nil =>
          rw [hcs0] at hlast
          rw [subScan_nil]
          exact ⟨by simp, hlast⟩
        | cons d ds =>
          rw [← hcs0]
          have hne2 : cs ≠ [] := by rw [hcs0]; simp
          have hlast2 : cs.getLast? ≠ some '\n' := by
            rw [getLast?_cons_of_ne_nil hne2] at hlast
            exact hlast
          obtain ⟨h1, h2⟩ := ih cs (by simpa using hn) (c == '\n') hne2 hlast2
          refine ⟨by simp, ?_⟩
          rw [getLast?_cons_of_ne_nil h1]
          exact h2
      cases b with
      | false =>
        rw [subScan_copy_false]
        exact hstep
      | true =>
        cases hm : matchAt (c :: cs) with
        | none =>
          rw [subScan_copy_none _ hm]
          exact hstep
        | some p =>
          obtain ⟨m, r⟩ := p
          obtain ⟨hd, ⟨t, ht⟩, hr⟩ := matchAt_some_decomp hm
          rw [subScan_match _ hm, renderRepl_lits]
          rcases hr with rfl | hla
          · rw [subScan_nil, List.append_nil]
            refine ⟨sectionBody_ne_nil entries, ?_⟩
            obtain ⟨cc, hcc, hccn, -⟩ := sectionBody_getLast entries
            rw [hcc]
            intro hq
            exact hccn (Option.some.inj hq)
          · obtain ⟨r2, rfl⟩ := lookaheadHit_head hla
            rw [subScan_cons_nl]
            cases hr2 : r2 with
            | nil =>
              exfalso
              apply hlast
              rw [hd, hr2]
              exact List.getLast?_concat _
            | cons e es =>
              rw [← hr2]
              have hr2ne : r2 ≠ [] := by rw [hr2]; simp
              have hlast2 : r2.getLast? ≠ some '\n' := by
                have hgl : (c :: cs).getLast? = r2.getLast? := by
                  rw [hd, List.getLast?_append_of_ne_nil _
                    (show ('\n' :: r2 : List Char) ≠ [] from by simp)]
                  exact getLast?_cons_of_ne_nil hr2ne
                rw [← hgl]
                exact hlast
              have hfuel : r2.length ≤ n := by
                have hml := matchAt_some_rest_len hm
                simp only [List.length_cons] at hml hn
                omega
              obtain ⟨h1, h2⟩ := ih r2 hfuel true hr2ne hlast2
              refine ⟨by simp, ?_⟩
              rw [List.getLast?_append_of_ne_nil _
                (show ('\n' :: subScan ((sectionBody entries).map ReplChunk.ch) true r2 :
                  List Char) ≠ [] from by simp)]
              rw [getLast?_cons_of_ne_nil h1]
              exact h2

theorem searchFrom_subScan (entries : List Entry) (hb : entriesBenign entries) :
    ∀ (n : Nat) (l : List Char), l.length ≤ n → ∀ (b : Bool),
      searchFrom b l = true →
      searchFrom b (subScan ((sectionBody entries).map ReplChunk.ch) b l) = true := by
  intro n
  induction n with
  | zero =>
    intro l hn b h
    rw [List.length_eq_zero.mp (Nat.le_zero.mp hn)] at h
    exact Bool.noConfusion h
  | succ n ih =>
    intro l hn b h
    cases l with
    | nil => exact Bool.noConfusion h
    | cons c cs =>
      have hcs : cs.length ≤ n := by simpa using hn
      cases b with
      | false =>
        rw [subScan_copy_false]
        have h' : searchFrom (c == '\n') cs = true := by
          simp only [searchFrom, Bool.false_and, Bool.false_or] at h
          exact h
        show searchFrom false
          (c :: subScan ((sectionBody entries).map ReplChunk.ch) (c == '\n') cs) = true
        simp only [searchFrom, Bool.false_and, Bool.false_or]
        exact ih cs hcs (c == '\n') h'
      | true =>
        cases hm : matchAt (c :: cs) with
        | none =>
          rw [subScan_copy_none _ hm]
          have h' : searchFrom (c == '\n') cs = true := by
            simp only [searchFrom, hm, Option.isSome_none, Bool.and_false,
              Bool.false_or] at h
            exact h
          show searchFrom true
            (c :: subScan ((sectionBody entries).map ReplChunk.ch) (c == '\n') cs) = true
          simp only [searchFrom, Bool.or_eq_true]
          right
          exact ih cs hcs (c == '\n') h'
        | some p =>
          obtain ⟨m, r⟩ := p
          obtain ⟨-, -, hr⟩ := matchAt_some_decomp hm
          rw [subScan_match _ hm, renderRepl_lits]
          have hshape := subScan_preserves_lookahead entries (m.getLast? == some '\n') r hr
          have hma := matchAt_sectionBody entries hb _ hshape
          exact searchFrom_append_match [] true
            (sectionBody entries ++
              subScan ((sectionBody entries).map ReplChunk.ch) (m.getLast? == some '\n') r)
            rfl (by rw [hma]; rfl)

theorem subScan_idem (entries : List Entry) (hb : entriesBenign entries) :
    ∀ (n : Nat) (l : List Char), l.length ≤ n → ∀ (b : Bool),
      subScan ((sectionBody entries).map ReplChunk.ch) b
        (subScan ((sectionBody entries).map ReplChunk.ch) b l) =
      subScan ((sectionBody entries).map ReplChunk.ch) b l := by
  intro n
  induction n with
  | zero =>
    intro l hn b
    rw [List.length_eq_zero.mp (Nat.le_zero.mp hn), subScan_nil, subScan_nil]
  | succ n ih =>
    intro l hn b
    cases l with
    | nil => rw [subScan_nil, subScan_nil]
    | cons c cs =>
      have hcs : cs.length ≤ n := by simpa using hn
      cases b with
      | false =>
        rw [subScan_copy_false, subScan_copy_false, ih cs hcs (c == '\n')]
      | true =>
        cases hm : matchAt (c :: cs) with
        | none =>
          have hm2 := matchAt_none_subScan entries c cs (c == '\n') hm
          rw [subScan_copy_none _ hm, subScan_copy_none _ hm2, ih cs hcs (c == '\n')]
        | some p =>
          obtain ⟨m, r⟩ := p
          obtain ⟨hd, ⟨t, ht⟩, hr⟩ := matchAt_some_decomp hm
          rw [subScan_match _ hm, renderRepl_lits]
          have hshape := subScan_preserves_lookahead entries (m.getLast? == some '\n') r hr
          rw [subScan_at_section entries hb _ hshape]
          have hw : subScan ((sectionBody entries).map ReplChunk.ch) false
              (subScan ((sectionBody entries).map ReplChunk.ch)
                (m.getLast? == some '\n') r) =
              subScan ((sectionBody entries).map ReplChunk.ch)
                (m.getLast? == some '\n') r := by
            rcases hr with rfl | hla
            · rw [subScan_nil, subScan_nil]
            · obtain ⟨r2, rfl⟩ := lookaheadHit_head hla
              have hfuel : r2.length ≤ n := by
                have hml := matchAt_some_rest_len hm
                simp only [List.length_cons] at hml hn
                omega
              rw [subScan_cons_nl, subScan_cons_nl, ih r2 hfuel true]
          rw [hw]

theorem merge_congr (a b : List Char) (entries : List Entry)
    (h : rstripNewlines a = rstripNewlines b) : merge a entries = merge b entries := by
  unfold merge
  rw [h]

theorem merge_replace_eq (d : List Char) (entries : List Entry) (hb : entriesBenign entries)
    (h : searchFrom true (rstripNewlines d) = true) :
    merge d entries =
      some (subScan ((sectionBody entries).map ReplChunk.ch) true (rstripNewlines d)) := by
  unfold merge
  rw [if_pos h]
  rw [section_template, parseTemplate_no_backslash (sectionBody_no_backslash entries hb)]
  simp only [Option.map_some']

theorem merge_fixed (x : List Char) (entries : List Entry) (hb : entriesBenign entries)
    (hrs : rstripNewlines x = x)
    (hsearch : searchFrom true x = true)
    (hfix : subScan ((sectionBody entries).map ReplChunk.ch) true x = x) :
    merge x entries = some x := by
  rw [merge_replace_eq x entries hb (by rw [hrs]; exact hsearch), hrs, hfix]

theorem subScan_section_self (entries : List Entry) (hb : entriesBenign entries) :
    subScan ((sectionBody entries).map ReplChunk.ch) true (sectionBody entries) =
      sectionBody entries := by
  have h := subScan_at_section entries hb [] (Or.inl rfl)
  rw [List.append_nil] at h
  rw [h, subScan_nil, List.append_nil]

theorem merge_replace_stable (d : List Char) (entries : List Entry) (hb : entriesBenign entries)
    (h : searchFrom true (rstripNewlines d) = true) :
    ∃ r, merge d entries = some r ∧
      merge r entries = some (rstripNewlines r) ∧
      merge (rstripNewlines r) entries = some (rstripNewlines r) := by
  have hyne : rstripNewlines d ≠ [] := by
    intro he
    rw [he] at h
    exact Bool.noConfusion h
  have hylast : (rstripNewlines d).getLast? ≠ some '\n' := by
    rcases rstripNewlines_getLast d with h0 | h0
    · exact absurd h0 hyne
    · exact h0
  obtain ⟨hrne, hrlast⟩ := subScan_last entries (rstripNewlines d).length (rstripNewlines d)
    (Nat.le_refl _) true hyne hylast
  have hrs : rstripNewlines (subScan ((sectionBody entries).map ReplChunk.ch) true
        (rstripNewlines d)) =
      subScan ((sectionBody entries).map ReplChunk.ch) true (rstripNewlines d) := by
    apply rstripNewlines_eq_self
    intro x hx heq
    rw [heq] at hx
    exact hrlast hx
  have hsearch2 : searchFrom true (subScan ((sectionBody entries).map ReplChunk.ch) true
      (rstripNewlines d)) = true :=
    searchFrom_subScan entries hb (rstripNewlines d).length _ (Nat.le_refl _) true h
  have hfix := subScan_idem entries hb (rstripNewlines d).length (rstripNewlines d)
    (Nat.le_refl _) true
  refine ⟨subScan ((sectionBody entries).map ReplChunk.ch) true (rstripNewlines d),
    merge_replace_eq d entries hb h, ?_, ?_⟩
  · rw [hrs]
    exact merge_fixed _ entries hb hrs hsearch2 hfix
  · rw [hrs]
    exact merge_fixed _ entries hb hrs hsearch2 hfix

theorem matchAt_section_nil (entries : List Entry) (hb : entriesBenign entries) :
    matchAt (sectionBody entries) = some (sectionBody entries, []) := by
  have h0 := matchAt_sectionBody entries hb [] (Or.inl rfl)
  rwa [List.append_nil] at h0

theorem searchFrom_section (entries : List Entry) (hb : entriesBenign entries) :
    searchFrom true (sectionBody entries) = true :=
  searchFrom_append_match [] true (sectionBody entries) rfl
    (by rw [matchAt_section_nil entries hb]; rfl)

theorem rstripNewlines_section (entries : List Entry) :
    rstripNewlines (sectionBody entries) = sectionBody entries := by
  obtain ⟨cc, hcc, hccn, -⟩ := sectionBody_getLast entries
  apply rstripNewlines_eq_self
  intro x hx heq
  rw [hcc] at hx
  exact hccn (by rw [Option.some.inj hx, heq])

theorem merge_append_stable (d : List Char) (entries : List Entry) (hb : entriesBenign entries)
    (h : searchFrom true (rstripNewlines d) = false) :
    ∃ r, merge d entries = some r ∧
      merge r entries = some (rstripNewlines r) ∧
      merge (rstripNewlines r) entries = some (rstripNewlines r) := by
  obtain ⟨cc, hcc, hccn, -⟩ := sectionBody_getLast entries
  by_cases hy : rstripNewlines d = []
  · have hfx : merge (sectionBody entries) entries = some (sectionBody entries) :=
      merge_fixed _ entries hb (rstripNewlines_section entries)
        (searchFrom_section entries hb) (subScan_section_self entries hb)
    refine ⟨build_screenshots_section entries, ?_, ?_, ?_⟩
    · rw [merge_append_eq d entries h, hy]
      simp
    · rw [section_template]
      rw [merge_congr (build_screenshots_section entries) (sectionBody entries) entries
        (by rw [section_template, rstripNewlines_section])]
      exact hfx
    · rw [section_template]
      exact hfx
  · have hZlast : (rstripNewlines d ++ ('\n' :: '\n' :: sectionBody entries)).getLast? =
        some cc := by
      rw [List.getLast?_append_of_ne_nil _
        (show ('\n' :: '\n' :: sectionBody entries : List Char) ≠ [] from by simp)]
      rw [getLast?_cons_of_ne_nil (show ('\n' :: sectionBody entries : List Char) ≠ [] from
        by simp)]
      rw [getLast?_cons_of_ne_nil (sectionBody_ne_nil entries)]
      exact hcc
    have hzrs : rstripNewlines (rstripNewlines d ++ ('\n' :: '\n' :: sectionBody entries)) =
        rstripNewlines d ++ ('\n' :: '\n' :: sectionBody entries) := by
      apply rstripNewlines_eq_self
      intro x hx heq
      rw [hZlast] at hx
      exact hccn (by rw [Option.some.inj hx, heq])
    have hassoc : (rstripNewlines d ++ ['\n', '\n']) ++ sectionBody entries =
        rstripNewlines d ++ ('\n' :: '\n' :: sectionBody entries) := by
      simp
    have hls : lineStartAfter true (rstripNewlines d ++ ['\n', '\n']) = true := by
      have hgl : (rstripNewlines d ++ ['\n', '\n']).getLast? = some '\n' := by
        rw [List.getLast?_append_of_ne_nil _ (show (['\n', '\n'] : List Char) ≠ [] from
          by simp)]
        rfl
      unfold lineStartAfter
      rw [hgl]
      rfl
    have hzsearch : searchFrom true
        (rstripNewlines d ++ ('\n' :: '\n' :: sectionBody entries)) = true := by
      rw [← hassoc]
      exact searchFrom_append_match _ true _ hls
        (by rw [matchAt_section_nil entries hb]; rfl)
    have hns : noStartIn true (rstripNewlines d) ('\n' :: '\n' :: sectionBody entries) = true :=
      noStartIn_ext_of_searchFalse (sectionBody entries) ⟨_, sectionBody_cons entries⟩
        (rstripNewlines d) true h
    have hzfix : subScan ((sectionBody entries).map ReplChunk.ch) true
        (rstripNewlines d ++ ('\n' :: '\n' :: sectionBody entries)) =
        rstripNewlines d ++ ('\n' :: '\n' :: sectionBody entries) := by
      rw [subScan_append_copy _ (rstripNewlines d) true _ hns]
      rw [subScan_cons_nl, subScan_cons_nl, subScan_section_self entries hb]
    have hfxz : merge (rstripNewlines d ++ ('\n' :: '\n' :: sectionBody entries)) entries =
        some (rstripNewlines d ++ ('\n' :: '\n' :: sectionBody entries)) :=
      merge_fixed _ entries hb hzrs hzsearch hzfix
    have hz : rstripNewlines (rstripNewlines d ++ ['\n', '\n'] ++
          build_screenshots_section entries) =
        rstripNewlines d ++ ('\n' :: '\n' :: sectionBody entries) := by
      rw [build_eq]
      rw [show (rstripNewlines d ++ ['\n', '\n']) ++ (sectionBody entries ++ ['\n']) =
          (rstripNewlines d ++ ('\n' :: '\n' :: sectionBody entries)) ++ ['\n'] from by simp]
      apply rstripNewlines_append_nl (by simp)
      intro c' hc'
      rw [hZlast] at hc'
      intro heq
      exact hccn (by rw [Option.some.inj hc', heq])
    refine ⟨rstripNewlines d ++ ['\n', '\n'] ++ build_screenshots_section entries, ?_, ?_, ?_⟩
    · rw [merge_append_eq d entries h, if_neg hy]
    · rw [hz]
      rw [merge_congr (rstripNewlines d ++ ['\n', '\n'] ++ build_screenshots_section entries)
        (rstripNewlines d ++ ('\n' :: '\n' :: sectionBody entries)) entries (by rw [hz, hzrs])]
      exact hfxz
    · rw [hz]
      exact hfxz

/-- Claim C1 (amended): merging is not literally idempotent — the first
merge leaves a trailing newline that the second merge strips — but it
stabilizes after that strip.  For every document `d` and every entry list
with newline- and backslash-free labels and URLs, `merge d entries`
succeeds with some result `r`; merging again yields `r` with its trailing
newlines stripped, and that stripped document is a true fixed point of the
merge. -/
theorem C1_second_merge_stable (d : List Char) (entries : List Entry)
    (hb : entriesBenign entries) :
    ∃ r, merge d entries = some r ∧
      merge r entries = some (rstripNewlines r) ∧
      merge (rstripNewlines r) entries = some (rstripNewlines r) := by
  cases hs : searchFrom true (rstripNewlines d) with
  | true => exact merge_replace_stable d entries hb hs
  | false => exact merge_append_stable d entries hb hs

theorem C1_witness :
    ∃ r, merge "# Title\n\nbody text\n".toList
        [⟨"Login".toList, "http://x/1.png".toList⟩] = some r ∧
      merge r [⟨"Login".toList, "http://x/1.png".toList⟩] = some (rstripNewlines r) ∧
      merge (rstripNewlines r) [⟨"Login".toList, "http://x/1.png".toList⟩] =
        some (rstripNewlines r) :=
  C1_second_merge_stable _ _ (by decide)
